import Mathlib

/-!
Verification of the turn-decision pipeline of `sandboxes/scripts/take_turn_common.py`:
state ingestion, prompt building, the OpenRouter call, tolerant JSON-action
extraction and result emission.  Python values exchanged as JSON are modelled by
the inductive type `Json` below; numbers are restricted to integers (the scripts
and their tests never exchange fractional numbers, and floating point is out of
scope).  The Python standard-library pieces the script leans on (`json.dumps`,
`json.loads`, `re.search` for the one fence pattern, `str.strip`, `str.find`,
`str.rfind`, `os.path.join`, `os.getenv`) are modelled faithfully on that
integer-restricted value space.
-/

namespace TakeTurn

/-- Model of a Python JSON value as produced by `json.loads`: `None`, `bool`,
`int`, `str`, `list`, `dict` (an association list in insertion order).
Fractional numbers are outside the model. -/
inductive Json where
  | null : Json
  | bool (b : Bool) : Json
  | int (n : Int) : Json
  | str (s : String) : Json
  | arr (xs : List Json) : Json
  | obj (kvs : List (String × Json)) : Json
deriving Inhabited

/-- Induction over `Json` that hands the inductive hypothesis to every element
of a nested list, for both arrays and objects. -/
theorem Json.inductionOn (P : Json → Prop)
    (hnull : P .null)
    (hbool : ∀ b, P (.bool b))
    (hint : ∀ n, P (.int n))
    (hstr : ∀ s, P (.str s))
    (harr : ∀ xs, (∀ x ∈ xs, P x) → P (.arr xs))
    (hobj : ∀ kvs, (∀ p ∈ kvs, P p.2) → P (.obj kvs)) : ∀ v, P v
  | .null => hnull
  | .bool b => hbool b
  | .int n => hint n
  | .str s => hstr s
  | .arr xs => harr xs (fun x hx =>
      have : sizeOf x < 1 + sizeOf xs := by
        have := List.sizeOf_lt_of_mem hx
        omega
      Json.inductionOn P hnull hbool hint hstr harr hobj x)
  | .obj kvs => hobj kvs (fun p hp =>
      have : sizeOf p.2 < 1 + sizeOf kvs := by
        have h1 := List.sizeOf_lt_of_mem hp
        have h2 : sizeOf p.2 < sizeOf p := by
          cases p with
          | mk a b => simp
        omega
      Json.inductionOn P hnull hbool hint hstr harr hobj p.2)
termination_by v => sizeOf v

mutual

/-- Structural equality test for `Json` values. -/
def Json.beq : Json → Json → Bool
  | .null, .null => true
  | .bool a, .bool b => a == b
  | .int a, .int b => a == b
  | .str a, .str b => a == b
  | .arr a, .arr b => Json.beqList a b
  | .obj a, .obj b => Json.beqFields a b
  | _, _ => false

/-- Structural equality test for lists of `Json` values. -/
def Json.beqList : List Json → List Json → Bool
  | va :: s, vb :: t => Json.beq va vb && Json.beqList s t
  | [], [] => true
  | _, _ => false

/-- Structural equality test for association lists of `Json` values. -/
def Json.beqFields : List (String × Json) → List (String × Json) → Bool
  | (ka, va) :: s, (kb, vb) :: t => ka == kb && Json.beq va vb && Json.beqFields s t
  | [], [] => true
  | _, _ => false

end

mutual

theorem Json.beq_iff : ∀ a b : Json, Json.beq a b = true ↔ a = b
  | .null, b => by cases b <;> simp [Json.beq]
  | .bool _, b => by cases b <;> simp [Json.beq]
  | .int _, b => by cases b <;> simp [Json.beq]
  | .str _, b => by cases b <;> simp [Json.beq]
  | .arr x, b => by
      cases b <;> simp [Json.beq]
      exact Json.beqList_iff x _
  | .obj x, b => by
      cases b <;> simp [Json.beq]
      exact Json.beqFields_iff x _

theorem Json.beqList_iff : ∀ a b : List Json, Json.beqList a b = true ↔ a = b
  | [], b => by cases b <;> simp [Json.beqList]
  | x :: xs, b => by
      cases b with
      | nil => simp [Json.beqList]
      | cons y ys =>
        simp only [Json.beqList, Bool.and_eq_true, List.cons.injEq]
        rw [Json.beq_iff x y, Json.beqList_iff xs ys]

theorem Json.beqFields_iff : ∀ a b : List (String × Json), Json.beqFields a b = true ↔ a = b
  | [], b => by cases b <;> simp [Json.beqFields]
  | (k₁, v₁) :: xs, b => by
      cases b with
      | nil => simp [Json.beqFields]
      | cons y ys =>
        cases y with
        | mk k₂ v₂ =>
          simp only [Json.beqFields, Bool.and_eq_true, List.cons.injEq, Prod.mk.injEq,
            beq_iff_eq]
          rw [Json.beq_iff v₁ v₂, Json.beqFields_iff xs ys]

end

instance : DecidableEq Json := fun a b =>
  decidable_of_iff (Json.beq a b = true) (Json.beq_iff a b)

/-- Test for the object constructor, mirroring `isinstance(parsed, dict)`. -/
def Json.isObj : Json → Bool
  | .obj _ => true
  | _ => false

/-- Test for the string constructor, mirroring `isinstance(v, str)`. -/
def Json.isStr : Json → Bool
  | .str _ => true
  | _ => false

/-- Python truthiness of a JSON-compatible value (`None`, `False`, `0`, `""`,
`[]` and the empty dict are falsy), as used by `if not env_type`. -/
def Json.truthy : Json → Bool
  | .null => false
  | .bool b => b
  | .int n => n != 0
  | .str s => s != ""
  | .arr xs => !xs.isEmpty
  | .obj kvs => !kvs.isEmpty

/-- Lookup on a Python dict modelled as an association list; keys are unique in
any list produced by the parser model, so the first match is the binding. -/
def lookupKey (k : String) : List (String × Json) → Option Json
  | [] => none
  | (k', v) :: t => if k' = k then some v else lookupKey k t

/-! ## Serialization: model of `json.dumps` with `ensure_ascii=True` -/

/-- Decimal digit character. -/
def digitChar (n : Nat) : Char := Char.ofNat (48 + n)

/-- Decimal digits of a natural number, most significant first, as Python's
`str` renders it. -/
def natDigits (n : Nat) : List Char :=
  if n < 10 then [digitChar n]
  else natDigits (n / 10) ++ [digitChar (n % 10)]
decreasing_by exact Nat.div_lt_self (by omega) (by omega)

/-- Decimal rendering of an integer, as Python's `str` renders it. -/
def intChars (n : Int) : List Char :=
  if n < 0 then '-' :: natDigits n.natAbs else natDigits n.toNat

/-- Lowercase hexadecimal digit character, as Python's `json` emits in
backslash-u escapes. -/
def hexDig (n : Nat) : Char :=
  if n < 10 then digitChar n else Char.ofNat (87 + n)

/-- Four lowercase hex digits of a code unit below 0x10000. -/
def hex4 (n : Nat) : List Char :=
  [hexDig (n / 4096 % 16), hexDig (n / 256 % 16), hexDig (n / 16 % 16), hexDig (n % 16)]

/-- Escaping of one character by `json.dumps` with `ensure_ascii=True`: the
seven short escapes, printable ASCII verbatim, everything else as
backslash-u hex, using a surrogate pair above 0xFFFF. -/
def escChar (c : Char) : List Char :=
  if c = '"' then ['\\', '"']
  else if c = '\\' then ['\\', '\\']
  else if c = '\n' then ['\\', 'n']
  else if c = '\t' then ['\\', 't']
  else if c = '\r' then ['\\', 'r']
  else if c = '\x08' then ['\\', 'b']
  else if c = '\x0c' then ['\\', 'f']
  else if 0x20 ≤ c.toNat ∧ c.toNat < 0x7f then [c]
  else if c.toNat < 0x10000 then '\\' :: 'u' :: hex4 c.toNat
  else
    '\\' :: 'u' :: hex4 (0xD800 + (c.toNat - 0x10000) / 0x400) ++
      '\\' :: 'u' :: hex4 (0xDC00 + (c.toNat - 0x10000) % 0x400)

/-- Escaping of a whole string body (without the enclosing quotes). -/
def escList : List Char → List Char
  | [] => []
  | c :: t => escChar c ++ escList t

/-- Lexicographic order on code-point sequences, Python's `<=` on `str`. -/
def lexLe : List Char → List Char → Bool
  | [], _ => true
  | _ :: _, [] => false
  | p :: ps, q :: qs => if p = q then lexLe ps qs else decide (p < q)

/-- Key order used by `sort_keys=True`. -/
def keyLe (a b : String × Json) : Bool := lexLe a.1.data b.1.data

/-- Insertion into a key-sorted association list (stable, like Python's sort). -/
def insertPair (p : String × Json) : List (String × Json) → List (String × Json)
  | [] => [p]
  | q :: t => if keyLe p q then p :: q :: t else q :: insertPair p t

/-- Stable sort of object members by key, Python's `sorted(d.items())`. -/
def sortPairs : List (String × Json) → List (String × Json)
  | [] => []
  | p :: t => insertPair p (sortPairs t)

/-- Propositional form of the key order. -/
def keyLeP (p q : String × Json) : Prop := lexLe p.1.data q.1.data = true

mutual

/-- Characters of `json.dumps(v)` with default separators and
`ensure_ascii=True`, without key sorting. -/
def dumpsChars : Json → List Char
  | .null => 'n' :: ['u', 'l', 'l']
  | .bool true => 't' :: ['r', 'u', 'e']
  | .bool false => 'f' :: ['a', 'l', 's', 'e']
  | .int n => intChars n
  | .str s => '"' :: escList s.data ++ ['"']
  | .arr xs => '[' :: dumpsElems xs ++ [']']
  | .obj kvs => '\x7b' :: dumpsMembers kvs ++ ['\x7d']

/-- Array elements joined by a comma and a space. -/
def dumpsElems : List Json → List Char
  | [] => []
  | [x] => dumpsChars x
  | x :: y :: rest => dumpsChars x ++ ',' :: ' ' :: dumpsElems (y :: rest)

/-- Object members joined by a comma and a space, key and value separated by a
colon and a space. -/
def dumpsMembers : List (String × Json) → List Char
  | [] => []
  | [(k, v)] => '"' :: escList k.data ++ '"' :: ':' :: ' ' :: dumpsChars v
  | (k, v) :: q :: rest =>
      '"' :: escList k.data ++ '"' :: ':' :: ' ' :: dumpsChars v ++
        ',' :: ' ' :: dumpsMembers (q :: rest)

end

mutual

/-- Recursive key-sorting of every object in a value.  Serializing `canon v`
without sorting produces exactly the text `json.dumps(v, sort_keys=True)`
produces, since that flag sorts the members at every nesting level. -/
def canon : Json → Json
  | .arr xs => .arr (canonList xs)
  | .obj kvs => .obj (sortPairs (canonFields kvs))
  | v => v

/-- Pointwise canonicalization of array elements. -/
def canonList : List Json → List Json
  | [] => []
  | x :: t => canon x :: canonList t

/-- Pointwise canonicalization of member values. -/
def canonFields : List (String × Json) → List (String × Json)
  | [] => []
  | (k, v) :: t => (k, canon v) :: canonFields t

end

/-- Model of `json.dumps(v, ensure_ascii=True, sort_keys=sortKeys)` with the
default separators, the exact serialization the script uses at its three dump
sites. -/
def jsonDumps (sortKeys : Bool) (v : Json) : String :=
  ⟨if sortKeys then dumpsChars (canon v) else dumpsChars v⟩

/-- Key-uniqueness of an association list, the shape of a Python dict. -/
def keysNodup : List (String × Json) → Bool
  | [] => true
  | (k, _) :: t => !(lookupKey k t).isSome && keysNodup t

mutual

/-- Well-formedness: every object in the value has pairwise distinct keys, so
the value is the image of an actual Python dict/list structure. -/
def Json.wfB : Json → Bool
  | .arr xs => Json.wfList xs
  | .obj kvs => keysNodup kvs && Json.wfFields kvs
  | _ => true

/-- Well-formedness of every element of a list. -/
def Json.wfList : List Json → Bool
  | [] => true
  | x :: t => Json.wfB x && Json.wfList t

/-- Well-formedness of every member value. -/
def Json.wfFields : List (String × Json) → Bool
  | [] => true
  | (_, v) :: t => Json.wfB v && Json.wfFields t

end

/-! ## Parsing: model of `json.loads`

The decoder below follows the JSON grammar as CPython's `json` module reads
it, restricted to integer numerals: objects, arrays, strings with the full
escape repertoire including surrogate pairs, `true`/`false`/`null`, and
integers without leading zeros.  Fractional numbers, exponents and the
nonstandard `NaN`/`Infinity` literals are outside the model, as are lone
surrogate escapes (which CPython tolerates but the script never produces or
consumes).  Duplicate keys follow dict semantics: the first occurrence keeps
its position and the last value wins. -/

/-- JSON inter-token whitespace, exactly the four characters `json` skips. -/
def isJsonWs (c : Char) : Bool := c = ' ' || c = '\t' || c = '\n' || c = '\r'

/-- Skip inter-token whitespace. -/
def skipWs (s : List Char) : List Char := s.dropWhile isJsonWs

/-- Value of a hexadecimal digit character, either case. -/
def hexVal? (c : Char) : Option Nat :=
  if '0' ≤ c ∧ c ≤ '9' then some (c.toNat - 48)
  else if 'a' ≤ c ∧ c ≤ 'f' then some (c.toNat - 87)
  else if 'A' ≤ c ∧ c ≤ 'F' then some (c.toNat - 55)
  else none

/-- Value of a decimal digit character. -/
def digitVal (c : Char) : Nat := c.toNat - 48

/-- Four hexadecimal digits and their value. -/
def parseHex4 : List Char → Option (Nat × List Char)
  | h₁ :: h₂ :: h₃ :: h₄ :: t =>
    match hexVal? h₁, hexVal? h₂, hexVal? h₃, hexVal? h₄ with
    | some a, some b, some c, some d => some (((a * 16 + b) * 16 + c) * 16 + d, t)
    | _, _, _, _ => none
  | _ => none

/-- One string escape after the backslash: the eight short escapes and the
backslash-u form, combining a surrogate pair into one character and rejecting
a lone surrogate. -/
def parseEscape : List Char → Option (Char × List Char)
  | '"' :: t => some ('"', t)
  | '\\' :: t => some ('\\', t)
  | '/' :: t => some ('/', t)
  | 'n' :: t => some ('\n', t)
  | 't' :: t => some ('\t', t)
  | 'r' :: t => some ('\r', t)
  | 'b' :: t => some ('\x08', t)
  | 'f' :: t => some ('\x0c', t)
  | 'u' :: r₁ =>
    match parseHex4 r₁ with
    | some (n, t) =>
      if 0xd800 ≤ n ∧ n < 0xdc00 then
        match t with
        | '\\' :: 'u' :: r₂ =>
          match parseHex4 r₂ with
          | some (m, t₂) =>
            if 0xdc00 ≤ m ∧ m < 0xe000 then
              some (Char.ofNat (0x10000 + (n - 0xd800) * 0x400 + (m - 0xdc00)), t₂)
            else none
          | none => none
        | _ => none
      else if 0xdc00 ≤ n ∧ n < 0xe000 then none
      else some (Char.ofNat n, t)
    | none => none
  | _ => none

theorem parseHex4_length (r : List Char) (n : Nat) (t : List Char)
    (h : parseHex4 r = some (n, t)) : t.length + 4 = r.length := by
  unfold parseHex4 at h
  split at h
  · split at h
    · injection h with h'
      injection h' with h₁ h₂
      subst h₂
      simp
    · exact Option.noConfusion h
  · exact Option.noConfusion h

theorem parseHex4_suffix (r : List Char) (n : Nat) (t : List Char)
    (h : parseHex4 r = some (n, t)) : t <:+ r := by
  unfold parseHex4 at h
  split at h
  · split at h
    · injection h with h'
      injection h' with h₁ h₂
      subst h₂
      simp [List.suffix_cons_iff]
    · exact Option.noConfusion h
  · exact Option.noConfusion h

set_option maxHeartbeats 1600000 in
theorem parseEscape_length (r : List Char) (ch : Char) (t₂ : List Char)
    (h : parseEscape r = some (ch, t₂)) : t₂.length < r.length := by
  unfold parseEscape at h
  split at h
  all_goals try {
    injection h with h'
    injection h' with h₁ h₂
    subst h₂
    simp }
  all_goals try exact Option.noConfusion h
  · split at h
    · next m t hx =>
      have hlen := parseHex4_length _ _ _ hx
      split at h
      · split at h
        · split at h
          · next m₂ t₃ hx₂ =>
            have hlen₂ := parseHex4_length _ _ _ hx₂
            split at h
            · injection h with h'
              injection h' with h₁ h₂
              subst h₂
              simp only [List.length_cons] at *
              omega
            · exact Option.noConfusion h
          · exact Option.noConfusion h
        · exact Option.noConfusion h
      · split at h
        · exact Option.noConfusion h
        · injection h with h'
          injection h' with h₁ h₂
          subst h₂
          simp only [List.length_cons] at *
          omega
    · exact Option.noConfusion h

set_option maxHeartbeats 1600000 in
theorem parseEscape_suffix (r : List Char) (ch : Char) (t₂ : List Char)
    (h : parseEscape r = some (ch, t₂)) : t₂ <:+ r := by
  unfold parseEscape at h
  split at h
  all_goals try {
    injection h with h'
    injection h' with h₁ h₂
    subst h₂
    simp [List.suffix_cons_iff] }
  all_goals try exact Option.noConfusion h
  · split at h
    · next m t hx =>
      have hsfx := parseHex4_suffix _ _ _ hx
      split at h
      · split at h
        · split at h
          · next m₂ t₃ hx₂ =>
            have hsfx₂ := parseHex4_suffix _ _ _ hx₂
            split at h
            · injection h with h'
              injection h' with h₁ h₂
              subst h₂
              refine (hsfx₂.trans ?_).trans ((hsfx.trans (by simp [List.suffix_cons_iff])))
              simp [List.suffix_cons_iff]
            · exact Option.noConfusion h
          · exact Option.noConfusion h
        · exact Option.noConfusion h
      · split at h
        · exact Option.noConfusion h
        · injection h with h'
          injection h' with h₁ h₂
          subst h₂
          exact hsfx.trans (by simp [List.suffix_cons_iff])
    · exact Option.noConfusion h

/-- Body of a JSON string after the opening quote: characters up to the
closing quote, decoding the escapes, and rejecting raw control characters as
the strict CPython decoder does.  The fuel falls by one per decoded
character; every step consumes at least one source character, so the fuel of
`jsonLoadsList` is always sufficient. -/
def parseStrRest : Nat → List Char → Option (List Char × List Char)
  | 0, _ => none
  | _, [] => none
  | fuel + 1, c :: t =>
    if c = '"' then some ([], t)
    else if c = '\\' then
      match parseEscape t with
      | some (ch, t₂) => (parseStrRest fuel t₂).map (fun pr => (ch :: pr.1, pr.2))
      | none => none
    else if c.toNat < 0x20 then none
    else (parseStrRest fuel t).map (fun pr => (c :: pr.1, pr.2))

/-- Unsigned integer numeral: a lone `0`, or a nonzero digit followed by
digits, exactly the integer part of the JSON number grammar.  A `0` followed
by more digits stops after the `0`, as the grammar demands, leaving the next
digit to trip the caller's delimiter check. -/
def parseDigits : List Char → Option (Nat × List Char)
  | '0' :: r => some (0, r)
  | c :: r =>
      if c.isDigit then
        some ((c :: r.takeWhile Char.isDigit).foldl (fun acc d => acc * 10 + digitVal d) 0,
          r.dropWhile Char.isDigit)
      else none
  | [] => none

/-- Update-or-append of one parsed member, Python dict assignment: an existing
key keeps its position and receives the new value. -/
def insertUpdate : List (String × Json) → String → Json → List (String × Json)
  | [], k, v => [(k, v)]
  | (k', v') :: t, k, v =>
      if k' = k then (k, v) :: t else (k', v') :: insertUpdate t k v

mutual

/-- One JSON value starting at the first non-whitespace character, returning
it with the unconsumed remainder.  The fuel only bounds recursion depth;
`jsonLoads` passes enough for any input of its length. -/
def parseVal : Nat → List Char → Option (Json × List Char)
  | 0, _ => none
  | fuel + 1, s =>
    match skipWs s with
    | [] => none
    | c :: r =>
      if c = '\x7b' then parseObjStart fuel r
      else if c = '[' then parseArrStart fuel r
      else if c = '"' then
        match parseStrRest fuel r with
        | some (cs, rest) => some (.str ⟨cs⟩, rest)
        | none => none
      else if c = '-' then
        match parseDigits r with
        | some (n, rest) => some (.int (-(n : Int)), rest)
        | none => none
      else if c.isDigit then
        match parseDigits (c :: r) with
        | some (n, rest) => some (.int (n : Int), rest)
        | none => none
      else if c = 't' then
        match r with
        | 'r' :: 'u' :: 'e' :: rest => some (.bool true, rest)
        | _ => none
      else if c = 'f' then
        match r with
        | 'a' :: 'l' :: 's' :: 'e' :: rest => some (.bool false, rest)
        | _ => none
      else if c = 'n' then
        match r with
        | 'u' :: 'l' :: 'l' :: rest => some (.null, rest)
        | _ => none
      else none

/-- Object body after the opening brace: empty object or members. -/
def parseObjStart : Nat → List Char → Option (Json × List Char)
  | 0, _ => none
  | fuel + 1, r =>
    match skipWs r with
    | '\x7d' :: rest => some (.obj [], rest)
    | t => parseMembers fuel [] t

/-- Members of an object from the first key onward, accumulating parsed
bindings with dict-assignment semantics. -/
def parseMembers : Nat → List (String × Json) → List Char → Option (Json × List Char)
  | 0, _, _ => none
  | fuel + 1, acc, s =>
    match s with
    | '"' :: r =>
      match parseStrRest fuel r with
      | some (kcs, r₁) =>
        match skipWs r₁ with
        | ':' :: r₂ =>
          match parseVal fuel r₂ with
          | some (v, r₃) =>
            match skipWs r₃ with
            | ',' :: r₄ => parseMembers fuel (insertUpdate acc ⟨kcs⟩ v) (skipWs r₄)
            | '\x7d' :: rest => some (.obj (insertUpdate acc ⟨kcs⟩ v), rest)
            | _ => none
          | none => none
        | _ => none
      | none => none
    | _ => none

/-- Array body after the opening bracket: empty array or elements. -/
def parseArrStart : Nat → List Char → Option (Json × List Char)
  | 0, _ => none
  | fuel + 1, r =>
    match skipWs r with
    | ']' :: rest => some (.arr [], rest)
    | t => parseElems fuel [] t

/-- Elements of an array from the first element onward. -/
def parseElems : Nat → List Json → List Char → Option (Json × List Char)
  | 0, _, _ => none
  | fuel + 1, acc, s =>
    match parseVal fuel s with
    | some (v, r) =>
      match skipWs r with
      | ',' :: r₂ => parseElems fuel (acc ++ [v]) r₂
      | ']' :: rest => some (.arr (acc ++ [v]), rest)
      | _ => none
    | none => none

end

mutual

/-- Fuel sufficient for `parseVal` to read back the serialization of a
value: one unit per decoder step along the spine of the value. -/
def pfuel : Json → Nat
  | .str s => 2 + s.data.length
  | .arr xs => 2 + pfuelElems xs
  | .obj kvs => 2 + pfuelMembers kvs
  | _ => 1

/-- Fuel sufficient for `parseElems` on the serialized elements. -/
def pfuelElems : List Json → Nat
  | [] => 0
  | x :: t => 1 + max (pfuel x) (pfuelElems t)

/-- Fuel sufficient for `parseMembers` on the serialized members. -/
def pfuelMembers : List (String × Json) → Nat
  | [] => 0
  | (k, v) :: t => 2 + k.data.length + max (pfuel v) (pfuelMembers t)

end

/-- Model of `json.loads` on a character list: one JSON value, then only
whitespace to the end of the input; anything else is a decode error, reported
as `none`.  The fuel `3 * length + 8` dominates the decoder's recursion depth
on any input. -/
def jsonLoadsList (s : List Char) : Option Json :=
  match parseVal (3 * s.length + 8) s with
  | some (v, rest) => if (skipWs rest).isEmpty then some v else none
  | none => none

/-- Model of `json.loads` on a string. -/
def jsonLoads (s : String) : Option Json := jsonLoadsList s.data

/-! ## Action extraction: model of `_extract_json_object` -/

/-- Python string whitespace, the set stripped by `str.strip()` and matched by
the regex class backslash-s on `str` patterns: the ASCII whitespace and the
Unicode space and separator characters. -/
def isPySpace (c : Char) : Bool :=
  let n := c.toNat
  (9 ≤ n && n ≤ 13) || n == 32 || (28 ≤ n && n ≤ 31) || n == 0x85 || n == 0xa0 ||
    n == 0x1680 || (0x2000 ≤ n && n ≤ 0x200a) || n == 0x2028 || n == 0x2029 ||
    n == 0x202f || n == 0x205f || n == 0x3000

/-- Model of `str.strip()`: drop whitespace from both ends. -/
def pyStrip (s : List Char) : List Char :=
  ((s.dropWhile isPySpace).reverse.dropWhile isPySpace).reverse

/-- Three backticks at the head of the input. -/
def hasTicks : List Char → Bool
  | '\x60' :: '\x60' :: '\x60' :: _ => true
  | _ => false

/-- Lazy scan of the group body: the shortest extension of the accumulated
body whose closing brace is followed by optional whitespace and the closing
fence, exactly how the lazy dot-star of the fence pattern backtracks. -/
def scanBody (acc : List Char) : List Char → Option (List Char)
  | [] => none
  | c :: t =>
      if c = '\x7d' ∧ hasTicks (t.dropWhile isPySpace) then
        some ('\x7b' :: acc.reverse ++ ['\x7d'])
      else scanBody (c :: acc) t

/-- After the optional tag: greedy whitespace, an opening brace, then the lazy
body scan.  Whitespace characters are never an opening brace, so the greedy
star needs no backtracking here. -/
def afterFence (r : List Char) : Option (List Char) :=
  match r.dropWhile isPySpace with
  | '\x7b' :: body => scanBody [] body
  | _ => none

/-- After the opening fence: try the optional `json` tag first, then without
it, the order in which the regex engine tries an optional group. -/
def fenceTail (r : List Char) : Option (List Char) :=
  match r with
  | 'j' :: 's' :: 'o' :: 'n' :: r' =>
    match afterFence r' with
    | some g => some g
    | none => afterFence r
  | _ => afterFence r

/-- Match attempt of the whole fence pattern anchored at the head. -/
def tryTicks : List Char → Option (List Char)
  | '\x60' :: '\x60' :: '\x60' :: r => fenceTail r
  | _ => none

/-- Model of `re.search` for the fence pattern with the DOTALL flag: the
match attempt anchored at the leftmost feasible position wins, and its first
group (the brace-delimited body) is returned. -/
def fencedSearch : List Char → Option (List Char)
  | [] => none
  | c :: t =>
    match tryTicks (c :: t) with
    | some g => some g
    | none => fencedSearch t

/-- Model of `str.find` for one character: index of the leftmost occurrence. -/
def charFindIdx (s : List Char) (c : Char) : Option Nat := s.findIdx? (fun x => x = c)

/-- Model of `str.rfind` for one character: index of the rightmost
occurrence. -/
def charRFindIdx (s : List Char) (c : Char) : Option Nat :=
  match s.reverse.findIdx? (fun x => x = c) with
  | some i => some (s.length - 1 - i)
  | none => none

/-- Model of the slice `s[start:stop]` for indices within range. -/
def pySlice (s : List Char) (start stop : Nat) : List Char := (s.drop start).take (stop - start)

/-- Python exception outcomes the script can produce, by exception class,
with the message where the script builds one. -/
inductive PyErr where
  | valueError (msg : String)
  | jsonDecodeError
  | attributeError
  | keyError (k : String)
  | indexError
  | typeError
  | fileNotFound (path : String)
  | runtimeError (msg : String)
deriving DecidableEq, Inhabited

deriving instance DecidableEq for Except

/-- The `ValueError` raised when no tier recovers a JSON object. -/
def noActionError : PyErr := .valueError "LLM response did not contain a JSON object action"

/-- Exception classes a failing subscript chain can raise, the concrete form
the spec's `ProviderError` takes for a malformed success envelope. -/
def isEnvelopeErr : PyErr → Bool
  | .keyError _ => true
  | .indexError => true
  | .typeError => true
  | _ => false

/-- An opening brace with a closing brace somewhere after it, the shape the
brace-span tier needs and the fence pattern presupposes. -/
def hasBracePair : List Char → Bool
  | [] => false
  | c :: t => if c = '\x7b' then t.contains '\x7d' else hasBracePair t

/-- Propositional form of `hasBracePair`: the text splits around an opening
brace followed later by a closing brace. -/
def BracePair (s : List Char) : Prop :=
  ∃ a b c, s = a ++ '\x7b' :: b ++ '\x7d' :: c

/-- Third extraction tier, lines 30 to 37 of `take_turn_common.py`: locate the
first opening and last closing brace, and when the latter follows the former,
parse the inclusive span.  The parse here sits outside any `try`, so its
failure raises a decode error rather than falling through to the
`ValueError`. -/
def tier3 (t : List Char) : Except PyErr Json :=
  match charFindIdx t '\x7b', charRFindIdx t '\x7d' with
  | some i, some j =>
      if i < j then
        match jsonLoadsList (pySlice t i (j + 1)) with
        | none => .error .jsonDecodeError
        | some v => if v.isObj then .ok v else .error noActionError
      else .error noActionError
  | _, _ => .error noActionError

/-- Second and third tiers on the candidate text: direct parse returning any
object, then the brace-span parse. -/
def tiers23 (t : List Char) : Except PyErr Json :=
  match jsonLoadsList t with
  | some v => if v.isObj then .ok v else tier3 t
  | none => tier3 t

/-- Candidate text the tiers run on: the stripped reply, replaced by the
stripped first group when the fence pattern matches (lines 17 to 21). -/
def candidate (raw : String) : List Char :=
  match fencedSearch (pyStrip raw.data) with
  | some g => pyStrip g
  | none => pyStrip raw.data

/-- Model of `_extract_json_object`: tolerant extraction of one JSON object
from the reply text. -/
def extract_json_object (raw : String) : Except PyErr Json := tiers23 (candidate raw)

/-- Inner text up to the next closing fence, for the claim-worded extractor:
everything before the next three backticks, regardless of content. -/
def specTakeInner : List Char → Option (List Char)
  | [] => none
  | c :: t =>
      if hasTicks (c :: t) then some []
      else (specTakeInner t).map (fun l => c :: l)

/-- Candidate selection as claim C2 words it: the first block delimited by
triple backticks (optionally tagged `json`), whatever the block contains,
yields its inner text.  This is the comparison definition for the claim; the
code's pattern additionally requires a brace-delimited body. -/
def specFencedInner : List Char → Option (List Char)
  | [] => none
  | c :: t =>
    match c :: t with
    | '\x60' :: '\x60' :: '\x60' :: r =>
      match r with
      | 'j' :: 's' :: 'o' :: 'n' :: r₂ => specTakeInner r₂
      | _ => specTakeInner r
    | _ => specFencedInner t

/-- Extraction as claim C2 describes it: the first fenced block's inner text,
regardless of content, is the candidate for the direct-parse and brace-span
tiers. -/
def spec_extract (raw : String) : Except PyErr Json :=
  match specFencedInner (pyStrip raw.data) with
  | some inner => tiers23 (pyStrip inner)
  | none => tiers23 (pyStrip raw.data)

/-! ## The turn pipeline: `_build_user_prompt`, `_call_openrouter`,
`run_from_stdin`

Effects are passed explicitly: the process environment as a partial map
(`os.getenv`), the filesystem as a partial map from path to file content, and
the provider as a function from the outbound request to its response.  Each
pipeline function returns its outcome together with the list of HTTP requests
it issued, so that "no request was attempted" is a statement about the
returned list. -/

/-- One outbound HTTP request exactly as `urllib.request.Request` is built on
lines 62 to 70. -/
structure OpenRouterRequest where
  url : String
  authHeader : String
  contentType : String
  httpMethod : String
  body : String
deriving DecidableEq

/-- Provider behavior for one request: a success body, an HTTP error status
with its body, or a transport failure, the three outcomes `urlopen`
distinguishes. -/
inductive ProviderResp where
  | success (body : String)
  | httpError (code : Nat) (details : String)
  | urlError (reason : String)

/-- Python subscripting `v[k]` with a string key: dicts look up, everything
else raises (`TypeError` for lists, strings and scalars; missing keys raise
`KeyError`). -/
def pyGetKey (v : Json) (k : String) : Except PyErr Json :=
  match v with
  | .obj kvs =>
    match lookupKey k kvs with
    | some x => .ok x
    | none => .error (.keyError k)
  | _ => .error .typeError

/-- Python subscripting `v[0]`: lists and strings index, an empty one raises
`IndexError`, dicts raise `KeyError`, scalars raise `TypeError`. -/
def pyGetIdx0 (v : Json) : Except PyErr Json :=
  match v with
  | .arr [] => .error .indexError
  | .arr (x :: _) => .ok x
  | .str s =>
    match s.data with
    | [] => .error .indexError
    | c :: _ => .ok (.str ⟨[c]⟩)
  | .obj _ => .error (.keyError "0")
  | _ => .error .typeError

/-- The envelope access `data["choices"][0]["message"]["content"]` of line
82, propagating whichever subscript error occurs first. -/
def getContentRaw (data : Json) : Except PyErr Json := do
  let choices ← pyGetKey data "choices"
  let first ← pyGetIdx0 choices
  let message ← pyGetKey first "message"
  pyGetKey message "content"

/-- Model of `os.getenv(k, d)`: the variable's value when present, else the
default. -/
def getenvD (env : String → Option String) (k d : String) : String := (env k).getD d

/-- Default endpoint URL from line 11. -/
def DEFAULT_OPENROUTER_URL : String := "https://openrouter.ai/api/v1/chat/completions"

/-- Default model identifier from line 12. -/
def DEFAULT_OPENROUTER_MODEL : String := "openai/gpt-4o-mini"

/-- Default skills directory from line 13. -/
def DEFAULT_SKILLS_DIR : String := "/workspace/skills"

/-- Model of `_build_user_prompt`: the fixed directive followed by the state
serialized with `ensure_ascii=True, sort_keys=True`. -/
def build_user_prompt (state : Json) : String :=
  "You are selecting the next action for an agent sandbox environment.\nReturn ONLY a JSON object describing the action.\n\nState:\n"
    ++ jsonDumps true state

/-- The request payload of lines 55 to 61: model identifier and the two
role-tagged messages, in insertion order. -/
def requestPayload (model skill userPrompt : String) : Json :=
  .obj [("model", .str model),
    ("messages", .arr [
      .obj [("role", .str "system"), ("content", .str skill)],
      .obj [("role", .str "user"), ("content", .str userPrompt)]])]

/-- Model of `_call_openrouter`: credential check, request construction, one
provider exchange, envelope access and extraction.  The second component
lists the requests issued. -/
def call_openrouter (env : String → Option String)
    (provider : OpenRouterRequest → ProviderResp) (prompt_skill : String) (state : Json) :
    Except PyErr Json × List OpenRouterRequest :=
  match env "OPENROUTER_API_KEY" with
  | none => (.error (.runtimeError "OPENROUTER_API_KEY is required"), [])
  | some key =>
    if key = "" then (.error (.runtimeError "OPENROUTER_API_KEY is required"), [])
    else
      let url := getenvD env "OPENROUTER_API_URL" DEFAULT_OPENROUTER_URL
      let mdl := getenvD env "OPENROUTER_MODEL" DEFAULT_OPENROUTER_MODEL
      let payload := requestPayload mdl prompt_skill (build_user_prompt state)
      let req : OpenRouterRequest :=
        { url := url
          authHeader := "Bearer " ++ key
          contentType := "application/json"
          httpMethod := "POST"
          body := jsonDumps false payload }
      match provider req with
      | .httpError code details =>
          (.error (.runtimeError ("OpenRouter request failed: " ++ toString code ++ " " ++ details)),
            [req])
      | .urlError reason =>
          (.error (.runtimeError ("OpenRouter request failed: " ++ reason)), [req])
      | .success body =>
        match jsonLoads body with
        | none => (.error .jsonDecodeError, [req])
        | some data =>
          match getContentRaw data with
          | .error e => (.error e, [req])
          | .ok (.str raw) => (extract_json_object raw, [req])
          | .ok _ => (.error .attributeError, [req])

/-- The ingestion checks of lines 87 to 90: `state.get("env_type")` demands a
dict (anything else raises `AttributeError`), and a missing or falsy
`env_type` raises the `RuntimeError` of line 90.  Any truthy value passes,
string or not. -/
def envTypeCheck (state : Json) : Except PyErr Json :=
  match state with
  | .obj kvs =>
    match lookupKey "env_type" kvs with
    | none => .error (.runtimeError "Input JSON must include env_type")
    | some v =>
        if v.truthy then .ok v else .error (.runtimeError "Input JSON must include env_type")
  | _ => .error .attributeError

/-- Escaping inside Python `repr` of a string, with the chosen quote. -/
def reprEsc (q : Char) : List Char → List Char
  | [] => []
  | c :: t =>
    (if c = '\\' then ['\\', '\\']
      else if c = q then ['\\', q]
      else if c = '\n' then ['\\', 'n']
      else if c = '\r' then ['\\', 'r']
      else if c = '\t' then ['\\', 't']
      else if c.toNat < 0x20 ∨ c.toNat = 0x7f then
        ['\\', 'x', hexDig (c.toNat / 16), hexDig (c.toNat % 16)]
      else [c]) ++ reprEsc q t

/-- Python `repr` of a string: single quotes, or double quotes when the text
holds a single quote and no double quote. -/
def pyReprStr (s : String) : String :=
  let q : Char := if s.data.contains '\'' ∧ ¬s.data.contains '"' then '"' else '\''
  ⟨q :: reprEsc q s.data ++ [q]⟩

mutual

/-- Python `repr` of a JSON-compatible value, as f-string interpolation
renders lists and dicts. -/
def pyRepr : Json → String
  | .null => "None"
  | .bool true => "True"
  | .bool false => "False"
  | .int n => ⟨intChars n⟩
  | .str s => pyReprStr s
  | .arr xs => "[" ++ pyReprJoin xs ++ "]"
  | .obj kvs => "\x7b" ++ pyReprJoinKV kvs ++ "\x7d"

/-- Comma-joined `repr` of list elements. -/
def pyReprJoin : List Json → String
  | [] => ""
  | [x] => pyRepr x
  | x :: y :: t => pyRepr x ++ ", " ++ pyReprJoin (y :: t)

/-- Comma-joined `repr` of dict items. -/
def pyReprJoinKV : List (String × Json) → String
  | [] => ""
  | [(k, v)] => pyReprStr k ++ ": " ++ pyRepr v
  | (k, v) :: q :: t => pyReprStr k ++ ": " ++ pyRepr v ++ ", " ++ pyReprJoinKV (q :: t)

end

/-- Python `str` of a value, the conversion an f-string applies: strings pass
through, scalars take their literal spelling, containers take `repr`. -/
def pyStrOf : Json → String
  | .str s => s
  | .null => "None"
  | .bool true => "True"
  | .bool false => "False"
  | .int n => ⟨intChars n⟩
  | v => pyRepr v

/-- Prefix test on strings by their character lists. -/
def strStartsWith (s pfx : String) : Bool := pfx.data.isPrefixOf s.data

/-- Suffix test on strings by their character lists. -/
def strEndsWith (s sfx : String) : Bool := sfx.data.isSuffixOf s.data

/-- Model of `os.path.join` for two POSIX path segments. -/
def pathJoin (a b : String) : String :=
  if strStartsWith b "/" then b
  else if a = "" ∨ strEndsWith a "/" then a ++ b
  else a ++ "/" ++ b

/-- Skill file name derived from `env_type` on line 95, with no
sanitization. -/
def skillFileName (env_type : Json) : String := pyStrOf env_type ++ "-player.md"

/-- Skill document path of line 95: the configured directory joined with the
derived file name. -/
def skillPathFor (skills_dir : String) (env_type : Json) : String :=
  pathJoin skills_dir (skillFileName env_type)

/-- Split of a character list at every slash. -/
def splitSlash (cur : List Char) : List Char → List (List Char)
  | [] => [cur.reverse]
  | c :: t => if c = '/' then cur.reverse :: splitSlash [] t else splitSlash (c :: cur) t

/-- Join of path components with slashes. -/
def joinSlash : List (List Char) → List Char
  | [] => []
  | [x] => x
  | x :: y :: t => x ++ '/' :: joinSlash (y :: t)

/-- Component stack processing for absolute-path normalization: a dot-dot
pops the last component and vanishes at the root. -/
def normStack : List (List Char) → List (List Char) → List (List Char)
  | stack, [] => stack.reverse
  | stack, c :: t =>
      if c = ['.', '.'] then
        match stack with
        | [] => normStack [] t
        | _ :: s => normStack s t
      else normStack (c :: stack) t

/-- Resolution of `.` and `..` in an absolute POSIX path, as the operating
system resolves the path handed to `open` (symlinks aside): the model of
where the skill path of line 95 actually lands. -/
def normPath (p : String) : String :=
  ⟨'/' :: joinSlash
    (normStack [] ((splitSlash [] p.data).filter (fun c => ¬(c = [] ∨ c = ['.']))))⟩

/-- Model of `run_from_stdin`: parse the input, check `env_type`, check the
credential, load the skill document, call the provider, emit one JSON line.
The second component lists the HTTP requests issued. -/
def run_from_stdin (env : String → Option String) (fs : String → Option String)
    (provider : OpenRouterRequest → ProviderResp) (stdin : String) :
    Except PyErr String × List OpenRouterRequest :=
  match jsonLoads stdin with
  | none => (.error .jsonDecodeError, [])
  | some state =>
    match envTypeCheck state with
    | .error e => (.error e, [])
    | .ok env_type =>
      match env "OPENROUTER_API_KEY" with
      | none => (.error (.runtimeError "OPENROUTER_API_KEY is required"), [])
      | some key =>
        if key = "" then (.error (.runtimeError "OPENROUTER_API_KEY is required"), [])
        else
          let skills_dir := getenvD env "SANDBOX_SKILLS_DIR" DEFAULT_SKILLS_DIR
          let skill_path := skillPathFor skills_dir env_type
          match fs skill_path with
          | none => (.error (.fileNotFound skill_path), [])
          | some skill_prompt =>
            match call_openrouter env provider skill_prompt state with
            | (.ok action, reqs) => (.ok (jsonDumps false action ++ "\n"), reqs)
            | (.error e, reqs) => (.error e, reqs)

/-- The success envelope the provider returns, as the stub server in the
repository's test builds it: one choice whose message carries the reply
text. -/
def mkEnvelope (content : String) : Json :=
  .obj [("choices", .arr [.obj [("message", .obj [("content", .str content)])]])]

/-! ## Theorems -/

theorem tier3_ok_isObj (t : List Char) (o : Json) (h : tier3 t = .ok o) : o.isObj = true := by
  unfold tier3 at h
  split at h
  · split at h
    · split at h
      · exact Except.noConfusion h
      · split at h
        · injection h with h'
          subst h'
          assumption
        · exact Except.noConfusion h
    · exact Except.noConfusion h
  · exact Except.noConfusion h

/-- Claim C5: every value the extractor returns on success is a JSON object,
never an array, scalar or null; the object test guards each of the two
returns of `_extract_json_object`. -/
theorem extract_returns_object (raw : String) (o : Json)
    (h : extract_json_object raw = .ok o) : o.isObj = true := by
  unfold extract_json_object tiers23 at h
  split at h
  · split at h
    · injection h with h'
      subst h'
      assumption
    · exact tier3_ok_isObj _ _ h
  · exact tier3_ok_isObj _ _ h

/-- Witness for C5 at a concrete reply consisting of one empty JSON object. -/
theorem extract_returns_object_witness :
    extract_json_object "\x7b\x7d" = .ok (Json.obj []) ∧ (Json.obj []).isObj = true :=
  ⟨by decide, extract_returns_object "\x7b\x7d" (Json.obj []) (by decide)⟩

/-- Claim C8, amended: the ingest check accepts exactly the JSON objects
whose `env_type` member is present and truthy; any truthy value passes,
string or not, so a non-string `env_type` such as a nonzero number is not
rejected.  Non-objects raise `AttributeError` and a missing or falsy
`env_type` raises the `RuntimeError` of line 90. -/
theorem env_type_check_ok_iff (st : Json) :
    (∃ v, envTypeCheck st = .ok v) ↔
      ∃ kvs v, st = Json.obj kvs ∧ lookupKey "env_type" kvs = some v ∧ v.truthy = true := by
  cases st with
  | obj kvs =>
    unfold envTypeCheck
    cases h : lookupKey "env_type" kvs with
    | none => simp [h]
    | some v =>
      cases hv : v.truthy with
      | false => simp [h, hv]
      | true => simp [h, hv]
  | null => simp [envTypeCheck]
  | bool b => simp [envTypeCheck]
  | int n => simp [envTypeCheck]
  | str s => simp [envTypeCheck]
  | arr xs => simp [envTypeCheck]

/-- Counterexample to claim C8 as stated: the input object whose `env_type`
is the number `5` is not a string, yet the ingest check accepts it rather
than failing. -/
theorem env_type_nonstring_accepted :
    envTypeCheck (Json.obj [("env_type", Json.int 5)]) = .ok (Json.int 5) ∧
      (Json.int 5).isStr = false := by
  constructor
  · rfl
  · rfl

/-- Claim C10: the skill document path is exactly the configured directory
joined with `env_type` plus `-player.md`, with no sanitization, and the
accepted `env_type` value `../x` resolves to a document outside the
configured directory. -/
theorem skill_path_unsanitized :
    (∀ dir e, skillPathFor dir (Json.str e) = pathJoin dir (e ++ "-player.md")) ∧
    skillPathFor "/workspace/skills" (Json.str "../x") = "/workspace/skills/../x-player.md" ∧
    normPath (skillPathFor "/workspace/skills" (Json.str "../x")) = "/workspace/x-player.md" ∧
    strStartsWith (normPath (skillPathFor "/workspace/skills" (Json.str "../x")))
      "/workspace/skills/" = false ∧
    envTypeCheck (Json.obj [("env_type", Json.str "../x")]) = .ok (Json.str "../x") := by
  refine ⟨fun dir e => rfl, by decide, by decide, by decide, by decide⟩

/-- Claim C6: with the `OPENROUTER_API_KEY` variable absent and an input that
passes ingestion, the turn fails with the error naming that credential, and
the request list is empty: no HTTP request is attempted.  The credential
check on line 91 precedes both the skill read and the provider call. -/
theorem missing_credential_no_request (env fs : String → Option String)
    (provider : OpenRouterRequest → ProviderResp) (stdin : String) (st v : Json)
    (hs : jsonLoads stdin = some st) (hv : envTypeCheck st = .ok v)
    (hk : env "OPENROUTER_API_KEY" = none) :
    run_from_stdin env fs provider stdin =
      (.error (.runtimeError "OPENROUTER_API_KEY is required"), []) := by
  simp only [run_from_stdin, hs, hv, hk]

/-- Witness for C6 at a concrete valid input and empty environment. -/
theorem missing_credential_no_request_witness :
    run_from_stdin (fun _ => none) (fun _ => none) (fun _ => .urlError "unreachable")
      "\x7b\"env_type\": \"rpg\"\x7d" =
        (.error (.runtimeError "OPENROUTER_API_KEY is required"), []) :=
  missing_credential_no_request (fun _ => none) (fun _ => none)
    (fun _ => .urlError "unreachable") "\x7b\"env_type\": \"rpg\"\x7d"
    (Json.obj [("env_type", Json.str "rpg")]) (Json.str "rpg") (by decide) (by decide) rfl

theorem pyGetKey_error_class (v : Json) (k : String) (e : PyErr)
    (h : pyGetKey v k = .error e) : isEnvelopeErr e = true := by
  unfold pyGetKey at h
  split at h
  · split at h
    · exact Except.noConfusion h
    · injection h with h'
      subst h'
      rfl
  · injection h with h'
    subst h'
    rfl

theorem pyGetIdx0_error_class (v : Json) (e : PyErr)
    (h : pyGetIdx0 v = .error e) : isEnvelopeErr e = true := by
  unfold pyGetIdx0 at h
  split at h
  · injection h with h'
    subst h'
    rfl
  · exact Except.noConfusion h
  · split at h
    · injection h with h'
      subst h'
      rfl
    · exact Except.noConfusion h
  · injection h with h'
    subst h'
    rfl
  · injection h with h'
    subst h'
    rfl

theorem getContentRaw_error_class (data : Json) (e : PyErr)
    (h : getContentRaw data = .error e) : isEnvelopeErr e = true := by
  unfold getContentRaw at h
  simp only [bind, Except.bind] at h
  split at h
  · injection h with h'
    subst h'
    exact pyGetKey_error_class _ _ _ (by assumption)
  · split at h
    · injection h with h'
      subst h'
      exact pyGetIdx0_error_class _ _ (by assumption)
    · split at h
      · injection h with h'
        subst h'
        exact pyGetKey_error_class _ _ _ (by assumption)
      · exact pyGetKey_error_class _ _ _ h

/-- Claim C9: when the provider answers with a success body that parses as
JSON but whose envelope lacks the expected fields, so that the subscript
chain of line 82 fails, the call fails with that subscript error, and the
error is of the envelope kind (`KeyError`, `IndexError` or `TypeError`), the
concrete form the spec's `ProviderError` takes here. -/
theorem malformed_envelope_fails (env : String → Option String)
    (provider : OpenRouterRequest → ProviderResp) (skill : String) (st : Json)
    (key body : String) (data : Json) (e : PyErr)
    (hk : env "OPENROUTER_API_KEY" = some key) (hk₂ : ¬key = "")
    (hp : ∀ r, provider r = .success body)
    (hb : jsonLoads body = some data) (he : getContentRaw data = .error e) :
    (call_openrouter env provider skill st).fst = .error e ∧ isEnvelopeErr e = true := by
  refine ⟨?_, getContentRaw_error_class data e he⟩
  simp only [call_openrouter, hk, hk₂, if_false, hp, hb, he]

/-- Witness for C9 at a provider answering `200` with the empty JSON object,
which lacks the `choices` field. -/
theorem malformed_envelope_fails_witness :
    (call_openrouter (fun k => if k = "OPENROUTER_API_KEY" then some "test-key" else none)
        (fun _ => .success "\x7b\x7d") "skill" (Json.obj [])).fst =
      .error (.keyError "choices") ∧ isEnvelopeErr (.keyError "choices") = true :=
  malformed_envelope_fails _ _ "skill" (Json.obj []) "test-key" "\x7b\x7d" (Json.obj [])
    (.keyError "choices") rfl (by decide) (fun r => rfl) (by decide) (by decide)

theorem scanBody_shape (l : List Char) : ∀ acc g, scanBody acc l = some g →
    ∃ inner, g = '\x7b' :: inner ++ ['\x7d'] := by
  induction l with
  | nil => intro acc g h; exact Option.noConfusion h
  | cons c t ih =>
    intro acc g h
    unfold scanBody at h
    split at h
    · injection h with h'
      exact ⟨acc.reverse, h'.symm⟩
    · exact ih _ _ h

theorem afterFence_shape (r : List Char) (g : List Char) (h : afterFence r = some g) :
    ∃ inner, g = '\x7b' :: inner ++ ['\x7d'] := by
  unfold afterFence at h
  split at h
  · exact scanBody_shape _ _ _ h
  · exact Option.noConfusion h

theorem fenceTail_shape (r : List Char) (g : List Char) (h : fenceTail r = some g) :
    ∃ inner, g = '\x7b' :: inner ++ ['\x7d'] := by
  unfold fenceTail at h
  split at h
  · split at h
    · injection h with h'
      subst h'
      exact afterFence_shape _ _ (by assumption)
    · exact afterFence_shape _ _ h
  · exact afterFence_shape _ _ h

theorem tryTicks_shape (s : List Char) (g : List Char) (h : tryTicks s = some g) :
    ∃ inner, g = '\x7b' :: inner ++ ['\x7d'] := by
  unfold tryTicks at h
  split at h
  · exact fenceTail_shape _ _ h
  · exact Option.noConfusion h

theorem fencedSearch_shape (s : List Char) : ∀ g, fencedSearch s = some g →
    ∃ inner, g = '\x7b' :: inner ++ ['\x7d'] := by
  induction s with
  | nil => intro g h; exact Option.noConfusion h
  | cons c t ih =>
    intro g h
    unfold fencedSearch at h
    split at h
    · injection h with h'
      subst h'
      exact tryTicks_shape _ _ (by assumption)
    · exact ih _ h

/-- Claim C2, amended: when the fence pattern matches, the candidate handed
to the direct-parse and brace-span tiers is the stripped first group, and
that group is brace-delimited; the pattern only matches a fenced block whose
body, after the optional tag and whitespace, is a brace-delimited span, so a
fenced block with any other content does not set the candidate. -/
theorem fenced_block_sets_candidate (raw : String) (g : List Char)
    (h : fencedSearch (pyStrip raw.data) = some g) :
    extract_json_object raw = tiers23 (pyStrip g) ∧
      ∃ inner, g = '\x7b' :: inner ++ ['\x7d'] := by
  constructor
  · simp only [extract_json_object, candidate, h]
  · exact fencedSearch_shape _ _ h

/-- Witness for C2 at the fenced reply the repository's test stub returns. -/
theorem fenced_block_sets_candidate_witness :
    extract_json_object "\x60\x60\x60json\n\x7b\"a\": 1\x7d\n\x60\x60\x60" =
        tiers23 (pyStrip ("\x7b\"a\": 1\x7d").data) ∧
      ∃ inner, ("\x7b\"a\": 1\x7d").data = '\x7b' :: inner ++ ['\x7d'] :=
  fenced_block_sets_candidate "\x60\x60\x60json\n\x7b\"a\": 1\x7d\n\x60\x60\x60"
    ("\x7b\"a\": 1\x7d").data (by decide)

/-- Counterexample to claim C2 as stated: the reply carries a fenced block
whose content is the array `[1]`; taking that block's inner text as the
candidate, as the claim prescribes, would fail both remaining tiers, but the
code ignores the block (its body is not brace-delimited) and extracts the
object that follows the fence. -/
theorem fenced_nonbrace_block_not_candidate :
    extract_json_object "\x60\x60\x60[1]\x60\x60\x60 \x7b\"a\": 1\x7d" =
        .ok (Json.obj [("a", Json.int 1)]) ∧
      spec_extract "\x60\x60\x60[1]\x60\x60\x60 \x7b\"a\": 1\x7d" = .error noActionError := by
  constructor
  · decide
  · decide

theorem tier3_modes (t : List Char) :
    (∃ o, tier3 t = .ok o) ∨ tier3 t = .error noActionError ∨
      (tier3 t = .error .jsonDecodeError ∧
        ∃ i j, charFindIdx t '\x7b' = some i ∧ charRFindIdx t '\x7d' = some j ∧ i < j ∧
          jsonLoadsList (pySlice t i (j + 1)) = none) := by
  unfold tier3
  split
  next i j hi hj =>
    split
    next hij =>
      cases hL : jsonLoadsList (pySlice t i (j + 1)) with
      | none => exact Or.inr (Or.inr ⟨rfl, i, j, hi, hj, hij, hL⟩)
      | some v =>
        cases hO : v.isObj with
        | true => exact Or.inl ⟨v, by simp [hO]⟩
        | false => exact Or.inr (Or.inl (by simp [hO]))
    next => exact Or.inr (Or.inl rfl)
  next => exact Or.inr (Or.inl rfl)

/-- Claim C4, amended: when extraction does not succeed it fails with the
`ValueError` stating that no JSON object action was found, except in one
case: the candidate has a brace span whose text is not valid JSON, in which
case the unguarded parse of line 33 raises a JSON decode error instead. -/
theorem extraction_failure_modes (raw : String) :
    (∃ o, extract_json_object raw = .ok o) ∨
      extract_json_object raw = .error noActionError ∨
      (extract_json_object raw = .error .jsonDecodeError ∧
        ∃ i j, charFindIdx (candidate raw) '\x7b' = some i ∧
          charRFindIdx (candidate raw) '\x7d' = some j ∧ i < j ∧
          jsonLoadsList (pySlice (candidate raw) i (j + 1)) = none) := by
  unfold extract_json_object tiers23
  cases hL : jsonLoadsList (candidate raw) with
  | some v =>
    cases hO : v.isObj with
    | true => exact Or.inl ⟨v, by simp [hO]⟩
    | false => simpa [hO] using tier3_modes (candidate raw)
  | none => simpa using tier3_modes (candidate raw)

/-- Counterexample to claim C4 as stated: on the reply `x{y}z` extraction
fails, but with a JSON decode error from the brace-span parse of line 33
rather than with the `ValueError` stating that no JSON object action was
found, so that `ValueError` is not the only failure outcome. -/
theorem tier3_decode_error_example :
    extract_json_object "x\x7by\x7dz" = .error .jsonDecodeError ∧
      (PyErr.jsonDecodeError ≠ noActionError) := by
  constructor
  · decide
  · decide

theorem bracePair_of_has : ∀ s, hasBracePair s = true → BracePair s := by
  intro s
  induction s with
  | nil => intro h; exact Bool.noConfusion h
  | cons c t ih =>
    intro h
    unfold hasBracePair at h
    split at h
    · next hc =>
      subst hc
      have hm : '\x7d' ∈ t := by simpa [List.contains] using h
      obtain ⟨b, c', hbc⟩ := List.append_of_mem hm
      exact ⟨[], b, c', by simp [hbc]⟩
    · obtain ⟨a, b, c', hs⟩ := ih h
      exact ⟨c :: a, b, c', by simp [hs]⟩

theorem has_of_bracePair : ∀ s, BracePair s → hasBracePair s = true := by
  intro s ⟨a, b, c, hs⟩
  subst hs
  induction a with
  | nil =>
    unfold hasBracePair
    simp [List.contains]
  | cons x a' ih =>
    unfold hasBracePair
    by_cases hx : x = '\x7b'
    · simp only [hx, if_true, List.cons_append]
      simp [List.contains]
    · simpa [hx] using ih

theorem bracePair_infix (pre m post : List Char) (h : BracePair m) :
    BracePair (pre ++ m ++ post) := by
  obtain ⟨a, b, c, hm⟩ := h
  subst hm
  exact ⟨pre ++ a, b, c ++ post, by simp⟩

theorem reverse_split (l : List Char) :
    l = (l.reverse.dropWhile isPySpace).reverse ++ (l.reverse.takeWhile isPySpace).reverse := by
  rw [← List.reverse_append, List.takeWhile_append_dropWhile, List.reverse_reverse]

theorem pyStrip_infix (s : List Char) : ∃ pre post, s = pre ++ pyStrip s ++ post := by
  refine ⟨s.takeWhile isPySpace,
    ((s.dropWhile isPySpace).reverse.takeWhile isPySpace).reverse, ?_⟩
  unfold pyStrip
  rw [List.append_assoc, ← reverse_split (s.dropWhile isPySpace),
    List.takeWhile_append_dropWhile]

theorem parseDigits_suffix (s : List Char) (n : Nat) (rest : List Char)
    (h : parseDigits s = some (n, rest)) : rest <:+ s := by
  unfold parseDigits at h
  split at h
  · injection h with h'
    injection h' with h₁ h₂
    subst h₂
    simp [List.suffix_cons_iff]
  · split at h
    · injection h with h'
      injection h' with h₁ h₂
      subst h₂
      exact (List.dropWhile_suffix _).trans (by simp [List.suffix_cons_iff])
    · exact Option.noConfusion h
  · exact Option.noConfusion h

theorem strRest_map_eq_some {fuel : Nat} {t : List Char} {ch : Char} {cs rest : List Char}
    (h : (parseStrRest fuel t).map (fun pr => (ch :: pr.1, pr.2)) = some (cs, rest)) :
    ∃ cs', parseStrRest fuel t = some (cs', rest) := by
  cases hp : parseStrRest fuel t with
  | none => rw [hp] at h; exact Option.noConfusion h
  | some pr =>
    cases pr with
    | mk a b =>
      rw [hp] at h
      simp only [Option.map_some', Option.some.injEq, Prod.mk.injEq] at h
      obtain ⟨h₁, h₂⟩ := h
      subst h₂
      exact ⟨a, rfl⟩

theorem parseStrRest_suffix : ∀ fuel s cs rest,
    parseStrRest fuel s = some (cs, rest) → rest <:+ s := by
  intro fuel
  induction fuel with
  | zero =>
    intro s cs rest h
    simp [parseStrRest] at h
  | succ n ih =>
    intro s cs rest h
    cases s with
    | nil => simp [parseStrRest] at h
    | cons c t =>
      simp only [parseStrRest] at h
      split at h
      · injection h with h'
        injection h' with h₁ h₂
        subst h₂
        simp [List.suffix_cons_iff]
      · split at h
        · split at h
          · next ch t₂ hE =>
            obtain ⟨cs', hp⟩ := strRest_map_eq_some h
            exact List.IsSuffix.trans (ih _ _ _ hp)
              ((parseEscape_suffix _ _ _ hE).trans (by simp [List.suffix_cons_iff]))
          · exact Option.noConfusion h
        · split at h
          · exact Option.noConfusion h
          · obtain ⟨cs', hp⟩ := strRest_map_eq_some h
            exact List.IsSuffix.trans (ih _ _ _ hp) (by simp [List.suffix_cons_iff])

theorem skipWs_suffix (s : List Char) : skipWs s <:+ s := List.dropWhile_suffix _

theorem parse_suffix : ∀ fuel,
    (∀ s p, parseVal fuel s = some p → p.2 <:+ s) ∧
    (∀ r p, parseObjStart fuel r = some p → p.2 <:+ r) ∧
    (∀ acc s p, parseMembers fuel acc s = some p → p.2 <:+ s) ∧
    (∀ r p, parseArrStart fuel r = some p → p.2 <:+ r) ∧
    (∀ acc s p, parseElems fuel acc s = some p → p.2 <:+ s) := by
  intro fuel
  induction fuel with
  | zero =>
    refine ⟨fun s p h => ?_, fun r p h => ?_, fun acc s p h => ?_, fun r p h => ?_,
      fun acc s p h => ?_⟩
    · simp [parseVal] at h
    · simp [parseObjStart] at h
    · simp [parseMembers] at h
    · simp [parseArrStart] at h
    · simp [parseElems] at h
  | succ n ih =>
    obtain ⟨ihV, ihO, ihM, ihA, ihE⟩ := ih
    refine ⟨fun s p h => ?_, fun r p h => ?_, fun acc s p h => ?_, fun r p h => ?_,
      fun acc s p h => ?_⟩
    · simp only [parseVal] at h
      split at h
      · exact Option.noConfusion h
      · next c r heq =>
        have hws : c :: r <:+ s := heq ▸ skipWs_suffix s
        have hsub : ∀ x : List Char, x <:+ r → x <:+ s :=
          fun x hx => (hx.trans (List.suffix_cons c r)).trans hws
        split at h
        · exact hsub _ (ihO _ _ h)
        · split at h
          · exact hsub _ (ihA _ _ h)
          · split at h
            · split at h
              · next cs rest hsr =>
                injection h with h'
                subst h'
                exact hsub _ (parseStrRest_suffix _ _ _ _ hsr)
              · exact Option.noConfusion h
            · split at h
              · split at h
                · next m rest hd =>
                  injection h with h'
                  subst h'
                  exact hsub _ (parseDigits_suffix _ _ _ hd)
                · exact Option.noConfusion h
              · split at h
                · split at h
                  · next m rest hd =>
                    injection h with h'
                    subst h'
                    exact (parseDigits_suffix _ _ _ hd).trans hws
                  · exact Option.noConfusion h
                · split at h
                  · split at h
                    · next rest =>
                      injection h with h'
                      subst h'
                      exact hsub _ (by simp [List.suffix_cons_iff])
                    · exact Option.noConfusion h
                  · split at h
                    · split at h
                      · next rest =>
                        injection h with h'
                        subst h'
                        exact hsub _ (by simp [List.suffix_cons_iff])
                      · exact Option.noConfusion h
                    · split at h
                      · split at h
                        · next rest =>
                          injection h with h'
                          subst h'
                          exact hsub _ (by simp [List.suffix_cons_iff])
                        · exact Option.noConfusion h
                      · exact Option.noConfusion h
    · simp only [parseObjStart] at h
      split at h
      · next rest heq =>
        injection h with h'
        subst h'
        exact (List.suffix_cons '\x7d' rest).trans (heq ▸ skipWs_suffix r)
      · exact (ihM _ _ _ h).trans (skipWs_suffix r)
    · simp only [parseMembers] at h
      split at h
      · next r =>
        split at h
        · next kcs r₁ hsr =>
          have h1 : r₁ <:+ '"' :: r :=
            (parseStrRest_suffix _ _ _ _ hsr).trans (List.suffix_cons '"' r)
          split at h
          · next r₂ heq₁ =>
            have h2 : r₂ <:+ r₁ := (List.suffix_cons ':' r₂).trans (heq₁ ▸ skipWs_suffix r₁)
            split at h
            · next v r₃ hv =>
              have h3 : r₃ <:+ r₂ := ihV _ _ hv
              split at h
              · next r₄ heq₂ =>
                have h4 : r₄ <:+ r₃ := (List.suffix_cons ',' r₄).trans (heq₂ ▸ skipWs_suffix r₃)
                exact ((((ihM _ _ _ h).trans (skipWs_suffix r₄)).trans h4).trans h3).trans
                  (h2.trans h1)
              · next rest heq₂ =>
                injection h with h'
                subst h'
                have h4 : rest <:+ r₃ :=
                  (List.suffix_cons '\x7d' rest).trans (heq₂ ▸ skipWs_suffix r₃)
                exact ((h4.trans h3).trans h2).trans h1
              · exact Option.noConfusion h
            · exact Option.noConfusion h
          · exact Option.noConfusion h
        · exact Option.noConfusion h
      · exact Option.noConfusion h
    · simp only [parseArrStart] at h
      split at h
      · next rest heq =>
        injection h with h'
        subst h'
        exact (List.suffix_cons ']' rest).trans (heq ▸ skipWs_suffix r)
      · exact (ihE _ _ _ h).trans (skipWs_suffix r)
    · simp only [parseElems] at h
      split at h
      · next v r hv =>
        have h3 : r <:+ s := ihV _ _ hv
        split at h
        · next r₂ heq =>
          have h4 : r₂ <:+ r := (List.suffix_cons ',' r₂).trans (heq ▸ skipWs_suffix r)
          exact ((ihE _ _ _ h).trans h4).trans h3
        · next rest heq =>
          injection h with h'
          subst h'
          exact ((List.suffix_cons ']' rest).trans (heq ▸ skipWs_suffix r)).trans h3
        · exact Option.noConfusion h
      · exact Option.noConfusion h

theorem obj_rbrace : ∀ fuel,
    (∀ r p, parseObjStart fuel r = some p → '\x7d' ∈ r) ∧
    (∀ acc s p, parseMembers fuel acc s = some p → '\x7d' ∈ s) := by
  intro fuel
  induction fuel with
  | zero =>
    refine ⟨fun r p h => ?_, fun acc s p h => ?_⟩
    · simp [parseObjStart] at h
    · simp [parseMembers] at h
  | succ n ih =>
    obtain ⟨ihO, ihM⟩ := ih
    have ihV := (parse_suffix n).1
    refine ⟨fun r p h => ?_, fun acc s p h => ?_⟩
    · simp only [parseObjStart] at h
      split at h
      · next rest heq =>
        have : '\x7d' ∈ skipWs r := by rw [heq]; exact List.mem_cons_self _ _
        exact (skipWs_suffix r).subset this
      · exact (skipWs_suffix r).subset (ihM _ _ _ h)
    · simp only [parseMembers] at h
      split at h
      · next r =>
        split at h
        · next kcs r₁ hsr =>
          have h1 : r₁ <:+ '"' :: r :=
            (parseStrRest_suffix _ _ _ _ hsr).trans (List.suffix_cons '"' r)
          split at h
          · next r₂ heq₁ =>
            have h2 : r₂ <:+ r₁ := (List.suffix_cons ':' r₂).trans (heq₁ ▸ skipWs_suffix r₁)
            split at h
            · next v r₃ hv =>
              have h3 : r₃ <:+ r₂ := ihV _ _ hv
              have hup : ∀ x, x ∈ skipWs r₃ → x ∈ '"' :: r := fun x hx =>
                (h1.subset (h2.subset (h3.subset ((skipWs_suffix r₃).subset hx))))
              split at h
              · next r₄ heq₂ =>
                have hm : '\x7d' ∈ skipWs r₄ := ihM _ _ _ h
                have : '\x7d' ∈ skipWs r₃ := by
                  rw [heq₂]
                  exact List.mem_cons_of_mem _ ((skipWs_suffix r₄).subset hm)
                exact hup _ this
              · next rest heq₂ =>
                have : '\x7d' ∈ skipWs r₃ := by rw [heq₂]; exact List.mem_cons_self _ _
                exact hup _ this
              · exact Option.noConfusion h
            · exact Option.noConfusion h
          · exact Option.noConfusion h
        · exact Option.noConfusion h
      · exact Option.noConfusion h

theorem arr_shape : ∀ fuel,
    (∀ r p, parseArrStart fuel r = some p → ∃ xs, p.1 = Json.arr xs) ∧
    (∀ acc s p, parseElems fuel acc s = some p → ∃ xs, p.1 = Json.arr xs) := by
  intro fuel
  induction fuel with
  | zero =>
    refine ⟨fun r p h => ?_, fun acc s p h => ?_⟩
    · simp [parseArrStart] at h
    · simp [parseElems] at h
  | succ n ih =>
    obtain ⟨ihA, ihE⟩ := ih
    refine ⟨fun r p h => ?_, fun acc s p h => ?_⟩
    · simp only [parseArrStart] at h
      split at h
      · injection h with h'
        subst h'
        exact ⟨[], rfl⟩
      · exact ihE _ _ _ h
    · simp only [parseElems] at h
      split at h
      · next v r hv =>
        split at h
        · exact ihE _ _ _ h
        · next rest heq =>
          injection h with h'
          subst h'
          exact ⟨_, rfl⟩
        · exact Option.noConfusion h
      · exact Option.noConfusion h

theorem parseVal_obj_brace (fuel : Nat) (s : List Char) (kvs : List (String × Json))
    (rest : List Char) (h : parseVal fuel s = some (Json.obj kvs, rest)) : BracePair s := by
  cases fuel with
  | zero => simp [parseVal] at h
  | succ n =>
    simp only [parseVal] at h
    split at h
    · exact Option.noConfusion h
    · next c r heq =>
      split at h
      · next hc =>
        subst hc
        have hm : '\x7d' ∈ r := (obj_rbrace n).1 _ _ h
        obtain ⟨b, c', hbc⟩ := List.append_of_mem hm
        refine ⟨s.takeWhile isJsonWs, b, c', ?_⟩
        conv_lhs => rw [← List.takeWhile_append_dropWhile isJsonWs s]
        have hline : s.dropWhile isJsonWs = '\x7b' :: r := heq
        rw [hline, hbc]
        simp
      · split at h
        · obtain ⟨xs, hxs⟩ := (arr_shape n).1 _ _ h
          exact absurd hxs (by simp)
        · split at h
          · split at h
            · next cs rest' hsr =>
              injection h with h'
              exact absurd (congrArg Prod.fst h') (by simp)
            · exact Option.noConfusion h
          · split at h
            · split at h
              · next m rest' hd =>
                injection h with h'
                exact absurd (congrArg Prod.fst h') (by simp)
              · exact Option.noConfusion h
            · split at h
              · split at h
                · next m rest' hd =>
                  injection h with h'
                  exact absurd (congrArg Prod.fst h') (by simp)
                · exact Option.noConfusion h
              · split at h
                · split at h
                  · next rest' =>
                    injection h with h'
                    exact absurd (congrArg Prod.fst h') (by simp)
                  · exact Option.noConfusion h
                · split at h
                  · split at h
                    · next rest' =>
                      injection h with h'
                      exact absurd (congrArg Prod.fst h') (by simp)
                    · exact Option.noConfusion h
                  · split at h
                    · split at h
                      · next rest' =>
                        injection h with h'
                        exact absurd (congrArg Prod.fst h') (by simp)
                      · exact Option.noConfusion h
                    · exact Option.noConfusion h

theorem jsonLoadsList_obj_brace (s : List Char) (kvs : List (String × Json))
    (h : jsonLoadsList s = some (Json.obj kvs)) : BracePair s := by
  unfold jsonLoadsList at h
  split at h
  · next v rest hv =>
    split at h
    · injection h with h'
      subst h'
      exact parseVal_obj_brace _ _ _ _ hv
    · exact Option.noConfusion h
  · exact Option.noConfusion h

theorem bracePair_prepend (pre l : List Char) (h : BracePair l) : BracePair (pre ++ l) := by
  obtain ⟨a, b, c, hl⟩ := h
  exact ⟨pre ++ a, b, c, by simp [hl]⟩

theorem scanBody_rbrace (l : List Char) : ∀ acc g, scanBody acc l = some g → '\x7d' ∈ l := by
  induction l with
  | nil => intro acc g h; exact Option.noConfusion h
  | cons c t ih =>
    intro acc g h
    unfold scanBody at h
    split at h
    · next hc => exact hc.1 ▸ List.mem_cons_self _ _
    · exact List.mem_cons_of_mem _ (ih _ _ h)

theorem afterFence_brace (r g : List Char) (h : afterFence r = some g) : BracePair r := by
  unfold afterFence at h
  split at h
  · next body heq =>
    have hm : '\x7d' ∈ body := scanBody_rbrace _ _ _ h
    obtain ⟨b, c', hbc⟩ := List.append_of_mem hm
    refine ⟨r.takeWhile isPySpace, b, c', ?_⟩
    conv_lhs => rw [← List.takeWhile_append_dropWhile isPySpace r]
    rw [heq, hbc]
    simp
  · exact Option.noConfusion h

theorem fenceTail_brace (r g : List Char) (h : fenceTail r = some g) : BracePair r := by
  unfold fenceTail at h
  split at h
  · next r' =>
    split at h
    · next g' hg =>
      injection h with h'
      exact bracePair_prepend ['j', 's', 'o', 'n'] _ (afterFence_brace _ _ hg)
    · exact afterFence_brace _ _ h
  · exact afterFence_brace _ _ h

theorem tryTicks_brace (s g : List Char) (h : tryTicks s = some g) : BracePair s := by
  unfold tryTicks at h
  split at h
  · exact bracePair_prepend ['\x60', '\x60', '\x60'] _ (fenceTail_brace _ _ h)
  · exact Option.noConfusion h

theorem fencedSearch_brace (s : List Char) : ∀ g, fencedSearch s = some g → BracePair s := by
  induction s with
  | nil => intro g h; exact Option.noConfusion h
  | cons c t ih =>
    intro g h
    unfold fencedSearch at h
    split at h
    · next g' hg =>
      injection h with h'
      exact tryTicks_brace _ _ hg
    · obtain ⟨a, b, c', hs⟩ := ih _ h
      exact ⟨c :: a, b, c', by simp [hs]⟩

theorem findIdx?_some_facts {α : Type} (p : α → Bool) :
    ∀ (l : List α) (i j : Nat), List.findIdx? p l i = some j →
      i ≤ j ∧ ∃ hlt : j - i < l.length, p (l.get ⟨j - i, hlt⟩) = true := by
  intro l
  induction l with
  | nil => intro i j h; simp [List.findIdx?] at h
  | cons x xs ih =>
    intro i j h
    rw [List.findIdx?_cons] at h
    split at h
    · next hp =>
      injection h with h'
      subst h'
      exact ⟨le_rfl, by simpa using hp⟩
    · obtain ⟨hle, hlt, hget⟩ := ih (i + 1) j h
      refine ⟨by omega, by simp; omega, ?_⟩
      have hk : j - i = (j - (i + 1)) + 1 := by omega
      have : (x :: xs).get ⟨j - i, by simp; omega⟩ = xs.get ⟨j - (i + 1), hlt⟩ := by
        simp only [hk, List.get_cons_succ]
      rw [this]
      exact hget

theorem charFindIdx_facts (t : List Char) (c : Char) (i : Nat)
    (h : charFindIdx t c = some i) :
    ∃ hlt : i < t.length, t.get ⟨i, hlt⟩ = c := by
  unfold charFindIdx at h
  obtain ⟨h0, hlt, hget⟩ := findIdx?_some_facts _ t 0 i h
  simp only [Nat.sub_zero] at hlt hget
  exact ⟨hlt, by simpa using hget⟩

theorem charRFindIdx_facts (t : List Char) (c : Char) (j : Nat)
    (h : charRFindIdx t c = some j) :
    ∃ hlt : j < t.length, t.get ⟨j, hlt⟩ = c := by
  unfold charRFindIdx at h
  split at h
  · next i' heq =>
    injection h with h'
    obtain ⟨hlt₀, hget⟩ := charFindIdx_facts t.reverse c i' heq
    have hlt : i' < t.length := by
      rw [List.length_reverse] at hlt₀
      exact hlt₀
    have hj : j = t.length - 1 - i' := h'.symm
    subst hj
    have hjlt : t.length - 1 - i' < t.length := by omega
    refine ⟨hjlt, ?_⟩
    have hrev := @List.getElem_reverse _ t i' (by simpa using hlt)
    simp only [List.get_eq_getElem] at hget ⊢
    rw [← hrev]
    exact hget
  · exact Option.noConfusion h

theorem find_rfind_bracePair (t : List Char) (i j : Nat)
    (hf : charFindIdx t '\x7b' = some i) (hr : charRFindIdx t '\x7d' = some j)
    (hij : i < j) : BracePair t := by
  obtain ⟨hlt₁, hget₁⟩ := charFindIdx_facts t '\x7b' i hf
  obtain ⟨hlt₂, hget₂⟩ := charRFindIdx_facts t '\x7d' j hr
  simp only [List.get_eq_getElem] at hget₁ hget₂
  have hsplit : t = t.take i ++ '\x7b' :: t.drop (i + 1) := by
    conv_lhs => rw [← List.take_append_drop i t]
    rw [List.drop_eq_getElem_cons hlt₁, hget₁]
  have hb : j - i - 1 < (t.drop (i + 1)).length := by
    simp only [List.length_drop]
    omega
  have hmem : '\x7d' ∈ t.drop (i + 1) := by
    have hgd : (t.drop (i + 1))[j - i - 1] = t[j] := by
      rw [List.getElem_drop]
      congr 1
      omega
    rw [hget₂] at hgd
    exact hgd ▸ List.getElem_mem hb
  obtain ⟨b, c', hbc⟩ := List.append_of_mem hmem
  refine ⟨t.take i, b, c', ?_⟩
  conv_lhs => rw [hsplit]
  rw [hbc]
  simp

theorem tier3_no_pair (t : List Char) (hn : ¬BracePair t) :
    tier3 t = .error noActionError := by
  unfold tier3
  cases hf : charFindIdx t '\x7b' with
  | none => cases hr : charRFindIdx t '\x7d' <;> simp
  | some i =>
    cases hr : charRFindIdx t '\x7d' with
    | none => simp
    | some j =>
      have hij : ¬i < j := fun hlt => hn (find_rfind_bracePair t i j hf hr hlt)
      simp [hij]

/-- Claim C3, amended: a reply whose text contains no opening brace followed
later by a closing brace makes extraction fail with the `ValueError` stating
no JSON object action was found; this covers JSON arrays and scalars with
brace-free text, while an array or scalar whose text does contain such a
pair (for instance an array holding an object) can instead have the
brace-span tier succeed. -/
theorem no_brace_pair_extraction_error (raw : String)
    (h : hasBracePair raw.data = false) :
    extract_json_object raw = .error noActionError := by
  have hnb : ¬BracePair raw.data := fun hb => by
    rw [has_of_bracePair _ hb] at h
    exact Bool.noConfusion h
  have hnbs : ¬BracePair (pyStrip raw.data) := fun hb => by
    obtain ⟨pre, post, hsp⟩ := pyStrip_infix raw.data
    exact hnb (hsp ▸ bracePair_infix pre _ post hb)
  have hfn : fencedSearch (pyStrip raw.data) = none := by
    cases hfs : fencedSearch (pyStrip raw.data) with
    | none => rfl
    | some g => exact absurd (fencedSearch_brace _ _ hfs) hnbs
  have hcand : candidate raw = pyStrip raw.data := by simp [candidate, hfn]
  have ht3 := tier3_no_pair _ hnbs
  unfold extract_json_object
  rw [hcand]
  unfold tiers23
  cases hL : jsonLoadsList (pyStrip raw.data) with
  | none => simp [ht3]
  | some v =>
    cases v with
    | obj kvs => exact absurd (jsonLoadsList_obj_brace _ _ hL) hnbs
    | null => simp [Json.isObj, ht3]
    | bool b => simp [Json.isObj, ht3]
    | int n => simp [Json.isObj, ht3]
    | str s => simp [Json.isObj, ht3]
    | arr xs => simp [Json.isObj, ht3]

/-- Witness for C3 at the brace-free array reply `[1, 2]`. -/
theorem no_brace_pair_extraction_error_witness :
    hasBracePair "[1, 2]".data = false ∧
      extract_json_object "[1, 2]" = .error noActionError :=
  ⟨by decide, no_brace_pair_extraction_error "[1, 2]" (by decide)⟩

/-- Counterexample to claim C3 as stated: the reply is only a JSON array,
yet extraction succeeds, because the array holds an object and the
brace-span tier parses it. -/
theorem array_with_object_extracts :
    jsonLoads "[\x7b\"a\": 1\x7d]" = some (Json.arr [Json.obj [("a", Json.int 1)]]) ∧
      extract_json_object "[\x7b\"a\": 1\x7d]" = .ok (Json.obj [("a", Json.int 1)]) := by
  constructor
  · decide
  · decide

theorem lexLe_total : ∀ a b : List Char, lexLe a b = true ∨ lexLe b a = true := by
  intro a
  induction a with
  | nil => intro b; exact Or.inl rfl
  | cons x as ih =>
    intro b
    cases b with
    | nil => exact Or.inr rfl
    | cons y bs =>
      by_cases hxy : x = y
      · subst hxy
        simpa [lexLe] using ih bs
      · rcases lt_or_gt_of_ne hxy with hlt | hgt
        · exact Or.inl (by simp [lexLe, hxy, hlt])
        · exact Or.inr (by simp [lexLe, Ne.symm hxy, hgt])

theorem lexLe_antisymm : ∀ a b : List Char, lexLe a b = true → lexLe b a = true → a = b := by
  intro a
  induction a with
  | nil =>
    intro b _ hba
    cases b with
    | nil => rfl
    | cons y bs => simp [lexLe] at hba
  | cons x as ih =>
    intro b hab hba
    cases b with
    | nil => simp [lexLe] at hab
    | cons y bs =>
      by_cases hxy : x = y
      · subst hxy
        simp only [lexLe, if_pos rfl] at hab hba
        rw [ih bs hab hba]
      · simp only [lexLe, if_neg hxy, if_neg (Ne.symm hxy), decide_eq_true_eq] at hab hba
        exact absurd hba (lt_asymm hab)

theorem lexLe_trans : ∀ a b c : List Char, lexLe a b = true → lexLe b c = true →
    lexLe a c = true := by
  intro a
  induction a with
  | nil => intro b c _ _; rfl
  | cons x as ih =>
    intro b c hab hbc
    cases b with
    | nil => simp [lexLe] at hab
    | cons y bs =>
      cases c with
      | nil => simp [lexLe] at hbc
      | cons z cs =>
        by_cases hxy : x = y
        · subst hxy
          by_cases hyz : x = z
          · subst hyz
            simp only [lexLe, if_pos rfl] at hab hbc ⊢
            exact ih bs cs hab hbc
          · simp only [lexLe, if_pos rfl] at hab
            simpa [lexLe, hyz] using hbc
        · by_cases hyz : y = z
          · subst hyz
            simpa [lexLe, hxy] using hab
          · simp only [lexLe, if_neg hxy, decide_eq_true_eq] at hab
            simp only [lexLe, if_neg hyz, decide_eq_true_eq] at hbc
            have hxz : x < z := lt_trans hab hbc
            simp [lexLe, ne_of_lt hxz, hxz]

theorem insertPair_perm (p : String × Json) : ∀ l, (insertPair p l).Perm (p :: l) := by
  intro l
  induction l with
  | nil => exact List.Perm.refl _
  | cons q t ih =>
    unfold insertPair
    split
    · exact List.Perm.refl _
    · exact (List.Perm.cons q ih).trans (List.Perm.swap p q t)

theorem sortPairs_perm : ∀ l : List (String × Json), (sortPairs l).Perm l := by
  intro l
  induction l with
  | nil => exact List.Perm.refl _
  | cons p t ih => exact (insertPair_perm p (sortPairs t)).trans (List.Perm.cons p ih)

theorem mem_insertPair {x p : String × Json} {l : List (String × Json)}
    (h : x ∈ insertPair p l) : x = p ∨ x ∈ l :=
  List.mem_cons.mp ((insertPair_perm p l).mem_iff.mp h)

theorem insertPair_sorted (p : String × Json) :
    ∀ l, l.Pairwise keyLeP → (insertPair p l).Pairwise keyLeP := by
  intro l
  induction l with
  | nil => intro _; exact List.pairwise_singleton _ _
  | cons q t ih =>
    intro hs
    obtain ⟨hq, ht⟩ := List.pairwise_cons.mp hs
    unfold insertPair
    split
    · next hle =>
      refine List.pairwise_cons.mpr ⟨?_, hs⟩
      intro x hx
      rcases List.mem_cons.mp hx with hx | hx
      · subst hx
        exact hle
      · exact lexLe_trans _ _ _ hle (hq x hx)
    · next hnle =>
      have hqp : keyLeP q p := by
        rcases lexLe_total p.1.data q.1.data with h | h
        · exact absurd h hnle
        · exact h
      refine List.pairwise_cons.mpr ⟨?_, ih ht⟩
      intro x hx
      rcases mem_insertPair hx with hx | hx
      · subst hx
        exact hqp
      · exact hq x hx

theorem sortPairs_sorted : ∀ l : List (String × Json), (sortPairs l).Pairwise keyLeP := by
  intro l
  induction l with
  | nil => exact List.Pairwise.nil
  | cons p t ih => exact insertPair_sorted p (sortPairs t) ih

theorem lookupKey_isSome_of_mem : ∀ (l : List (String × Json)) (q : String × Json),
    q ∈ l → (lookupKey q.1 l).isSome = true := by
  intro l
  induction l with
  | nil => intro q h; simp at h
  | cons p t ih =>
    intro q h
    cases p with
    | mk k v =>
      unfold lookupKey
      by_cases hk : k = q.1
      · simp [hk]
      · rcases List.mem_cons.mp h with h' | h'
        · exact absurd (congrArg Prod.fst h'.symm) hk
        · simpa [hk] using ih q h'

theorem lookupKey_isSome_iff (k : String) : ∀ l : List (String × Json),
    (lookupKey k l).isSome = true ↔ k ∈ l.map Prod.fst := by
  intro l
  induction l with
  | nil => simp [lookupKey]
  | cons p t ih =>
    cases p with
    | mk k' v =>
      by_cases hk : k' = k
      · subst hk
        simp [lookupKey]
      · simp only [lookupKey, if_neg hk, List.map_cons, List.mem_cons]
        rw [ih]
        constructor
        · exact Or.inr
        · rintro (h | h)
          · exact absurd h.symm hk
          · exact h

theorem keysNodup_iff : ∀ l : List (String × Json),
    keysNodup l = true ↔ (l.map Prod.fst).Nodup := by
  intro l
  induction l with
  | nil => simp [keysNodup]
  | cons p t ih =>
    cases p with
    | mk k v =>
      simp only [keysNodup, Bool.and_eq_true, Bool.not_eq_true', List.map_cons,
        List.nodup_cons]
      rw [ih]
      constructor
      · rintro ⟨h₁, h₂⟩
        refine ⟨fun hm => ?_, h₂⟩
        rw [← lookupKey_isSome_iff k t] at hm
        rw [h₁] at hm
        exact Bool.noConfusion hm
      · rintro ⟨h₁, h₂⟩
        refine ⟨?_, h₂⟩
        cases hs : (lookupKey k t).isSome with
        | false => rfl
        | true => exact absurd ((lookupKey_isSome_iff k t).mp hs) h₁

theorem sorted_perm_eq : ∀ l₁ l₂ : List (String × Json), l₁.Pairwise keyLeP →
    l₂.Pairwise keyLeP → keysNodup l₁ = true → l₁.Perm l₂ → l₁ = l₂ := by
  intro l₁
  induction l₁ with
  | nil =>
    intro l₂ _ _ _ hp
    exact hp.nil_eq
  | cons p t₁ ih =>
    intro l₂ hs₁ hs₂ hnd hp
    cases l₂ with
    | nil => exact absurd hp.symm.nil_eq (by simp)
    | cons q t₂ =>
      obtain ⟨hp₁, ht₁⟩ := List.pairwise_cons.mp hs₁
      obtain ⟨hq₁, ht₂⟩ := List.pairwise_cons.mp hs₂
      by_cases hpq : p = q
      · subst hpq
        have hnd' : keysNodup t₁ = true := by
          cases p with
          | mk k v =>
            simp only [keysNodup, Bool.and_eq_true] at hnd
            exact hnd.2
        rw [ih t₂ ht₁ ht₂ hnd' hp.cons_inv]
      · exfalso
        have hqmem : q ∈ t₁ := by
          rcases List.mem_cons.mp (hp.mem_iff.mpr (List.mem_cons_self q t₂)) with h | h
          · exact absurd h.symm hpq
          · exact h
        have hpmem : p ∈ t₂ := by
          rcases List.mem_cons.mp (hp.mem_iff.mp (List.mem_cons_self p t₁)) with h | h
          · exact absurd h hpq
          · exact h
        have h₁ : keyLeP p q := hp₁ q hqmem
        have h₂ : keyLeP q p := hq₁ p hpmem
        have hk : p.1 = q.1 := String.ext (lexLe_antisymm _ _ h₁ h₂)
        have hsome : (lookupKey p.1 t₁).isSome = true := by
          rw [hk]
          exact lookupKey_isSome_of_mem t₁ q hqmem
        cases p with
        | mk k v =>
          simp only [keysNodup, Bool.and_eq_true, Bool.not_eq_true'] at hnd
          rw [hnd.1] at hsome
          exact Bool.noConfusion hsome

theorem canonFields_eq_map : ∀ l : List (String × Json),
    canonFields l = l.map (fun p => (p.1, canon p.2)) := by
  intro l
  induction l with
  | nil => rfl
  | cons p t ih =>
    cases p with
    | mk k v => simp [canonFields, ih]

/-- Equal mappings canonicalize identically: two member lists holding the
same key-value pairs, in any order, with no duplicate keys, have the same
canonical form, which is what stable key sorting buys. -/
theorem canon_perm (s₁ s₂ : List (String × Json)) (hperm : s₁.Perm s₂)
    (hnd : keysNodup s₁ = true) : canon (Json.obj s₁) = canon (Json.obj s₂) := by
  simp only [canon]
  congr 1
  have hmap : (canonFields s₁).Perm (canonFields s₂) := by
    rw [canonFields_eq_map, canonFields_eq_map]
    exact hperm.map _
  have hkeys : (canonFields s₁).map Prod.fst = s₁.map Prod.fst := by
    rw [canonFields_eq_map, List.map_map]
    rfl
  have hnd₁ : keysNodup (sortPairs (canonFields s₁)) = true := by
    rw [keysNodup_iff]
    have hpm : ((sortPairs (canonFields s₁)).map Prod.fst).Perm (s₁.map Prod.fst) := by
      rw [← hkeys]
      exact (sortPairs_perm (canonFields s₁)).map _
    exact hpm.nodup_iff.mpr ((keysNodup_iff s₁).mp hnd)
  exact sorted_perm_eq _ _ (sortPairs_sorted _) (sortPairs_sorted _) hnd₁
    (((sortPairs_perm _).trans hmap).trans (sortPairs_perm _).symm)

theorem digitChar_ascii (n : Nat) (h : n < 10) : (digitChar n).toNat < 128 := by
  interval_cases n <;> decide

theorem hexDig_ascii (n : Nat) (h : n < 16) : (hexDig n).toNat < 128 := by
  interval_cases n <;> decide

theorem natDigits_ascii (n : Nat) : ∀ c ∈ natDigits n, c.toNat < 128 := by
  induction n using Nat.strong_induction_on with
  | _ n ih =>
    intro c hc
    unfold natDigits at hc
    split at hc
    · next h10 =>
      rw [List.mem_singleton] at hc
      subst hc
      exact digitChar_ascii n h10
    · next h10 =>
      rcases List.mem_append.mp hc with hc | hc
      · exact ih (n / 10) (Nat.div_lt_self (by omega) (by omega)) c hc
      · rw [List.mem_singleton] at hc
        subst hc
        exact digitChar_ascii _ (Nat.mod_lt _ (by omega))

theorem intChars_ascii (n : Int) : ∀ c ∈ intChars n, c.toNat < 128 := by
  intro c hc
  unfold intChars at hc
  split at hc
  · rcases List.mem_cons.mp hc with hc | hc
    · subst hc
      decide
    · exact natDigits_ascii _ c hc
  · exact natDigits_ascii _ c hc

theorem hex4_ascii (n : Nat) : ∀ c ∈ hex4 n, c.toNat < 128 := by
  intro c hc
  unfold hex4 at hc
  simp only [List.mem_cons, List.not_mem_nil, or_false] at hc
  rcases hc with hc | hc | hc | hc <;> subst hc <;>
    exact hexDig_ascii _ (Nat.mod_lt _ (by omega))

theorem escChar_ascii (c : Char) : ∀ x ∈ escChar c, x.toNat < 128 := by
  intro x hx
  unfold escChar at hx
  split at hx
  · simp only [List.mem_cons, List.not_mem_nil, or_false] at hx
    rcases hx with hx | hx <;> subst hx <;> decide
  · split at hx
    · simp only [List.mem_cons, List.not_mem_nil, or_false] at hx
      rcases hx with hx | hx <;> subst hx <;> decide
    · split at hx
      · simp only [List.mem_cons, List.not_mem_nil, or_false] at hx
        rcases hx with hx | hx <;> subst hx <;> decide
      · split at hx
        · simp only [List.mem_cons, List.not_mem_nil, or_false] at hx
          rcases hx with hx | hx <;> subst hx <;> decide
        · split at hx
          · simp only [List.mem_cons, List.not_mem_nil, or_false] at hx
            rcases hx with hx | hx <;> subst hx <;> decide
          · split at hx
            · simp only [List.mem_cons, List.not_mem_nil, or_false] at hx
              rcases hx with hx | hx <;> subst hx <;> decide
            · split at hx
              · simp only [List.mem_cons, List.not_mem_nil, or_false] at hx
                rcases hx with hx | hx <;> subst hx <;> decide
              · split at hx
                · next hpr =>
                  rw [List.mem_singleton] at hx
                  subst hx
                  omega
                · split at hx
                  · rcases List.mem_cons.mp hx with hx | hx
                    · subst hx
                      decide
                    · rcases List.mem_cons.mp hx with hx | hx
                      · subst hx
                        decide
                      · exact hex4_ascii _ x hx
                  · rcases List.mem_cons.mp hx with hx | hx
                    · subst hx
                      decide
                    · rcases List.mem_cons.mp hx with hx | hx
                      · subst hx
                        decide
                      · rcases List.mem_append.mp hx with hx | hx
                        · exact hex4_ascii _ x hx
                        · rcases List.mem_cons.mp hx with hx | hx
                          · subst hx
                            decide
                          · rcases List.mem_cons.mp hx with hx | hx
                            · subst hx
                              decide
                            · exact hex4_ascii _ x hx

theorem escList_ascii : ∀ l : List Char, ∀ x ∈ escList l, x.toNat < 128 := by
  intro l
  induction l with
  | nil => intro x hx; simp [escList] at hx
  | cons c t ih =>
    intro x hx
    unfold escList at hx
    rcases List.mem_append.mp hx with hx | hx
    · exact escChar_ascii c x hx
    · exact ih x hx

theorem dumpsElems_ascii : ∀ xs : List Json,
    (∀ v ∈ xs, ∀ c ∈ dumpsChars v, c.toNat < 128) →
    ∀ c ∈ dumpsElems xs, c.toNat < 128 := by
  intro xs
  induction xs with
  | nil => intro _ c hc; simp [dumpsElems] at hc
  | cons x t ih =>
    intro hv c hc
    cases t with
    | nil => exact hv x (List.mem_cons_self _ _) c hc
    | cons y t' =>
      rw [show dumpsElems (x :: y :: t') =
        dumpsChars x ++ ',' :: ' ' :: dumpsElems (y :: t') from rfl] at hc
      rcases List.mem_append.mp hc with hc | hc
      · exact hv x (List.mem_cons_self _ _) c hc
      · rcases List.mem_cons.mp hc with hc | hc
        · subst hc
          decide
        · rcases List.mem_cons.mp hc with hc | hc
          · subst hc
            decide
          · exact ih (fun v hv' => hv v (List.mem_cons_of_mem _ hv')) c hc

theorem dumpsMembers_ascii : ∀ kvs : List (String × Json),
    (∀ p ∈ kvs, ∀ c ∈ dumpsChars p.2, c.toNat < 128) →
    ∀ c ∈ dumpsMembers kvs, c.toNat < 128 := by
  intro kvs
  induction kvs with
  | nil => intro _ c hc; simp [dumpsMembers] at hc
  | cons p t ih =>
    intro hv c hc
    cases p with
    | mk k v =>
      cases t with
      | nil =>
        rw [show dumpsMembers [(k, v)] =
          '"' :: escList k.data ++ '"' :: ':' :: ' ' :: dumpsChars v from rfl] at hc
        rcases List.mem_cons.mp hc with hc | hc
        · subst hc
          decide
        · rcases List.mem_append.mp hc with hc | hc
          · exact escList_ascii _ c hc
          · rcases List.mem_cons.mp hc with hc | hc
            · subst hc
              decide
            · rcases List.mem_cons.mp hc with hc | hc
              · subst hc
                decide
              · rcases List.mem_cons.mp hc with hc | hc
                · subst hc
                  decide
                · exact hv (k, v) (List.mem_cons_self _ _) c hc
      | cons q t' =>
        rw [show dumpsMembers ((k, v) :: q :: t') =
          '"' :: escList k.data ++ '"' :: ':' :: ' ' :: dumpsChars v ++
            ',' :: ' ' :: dumpsMembers (q :: t') from rfl] at hc
        rcases List.mem_append.mp hc with hc | hc
        · rcases List.mem_cons.mp hc with hc | hc
          · subst hc
            decide
          · rcases List.mem_append.mp hc with hc | hc
            · exact escList_ascii _ c hc
            · rcases List.mem_cons.mp hc with hc | hc
              · subst hc
                decide
              · rcases List.mem_cons.mp hc with hc | hc
                · subst hc
                  decide
                · rcases List.mem_cons.mp hc with hc | hc
                  · subst hc
                    decide
                  · exact hv (k, v) (List.mem_cons_self _ _) c hc
        · rcases List.mem_cons.mp hc with hc | hc
          · subst hc
            decide
          · rcases List.mem_cons.mp hc with hc | hc
            · subst hc
              decide
            · exact ih (fun p hp => hv p (List.mem_cons_of_mem _ hp)) c hc

theorem dumpsChars_ascii : ∀ v : Json, ∀ c ∈ dumpsChars v, c.toNat < 128 := by
  intro v
  induction v using Json.inductionOn with
  | hnull => intro c hc; fin_cases hc <;> decide
  | hbool b =>
    intro c hc
    cases b <;> fin_cases hc <;> decide
  | hint n => exact intChars_ascii n
  | hstr s =>
    intro c hc
    rw [show dumpsChars (Json.str s) = '"' :: escList s.data ++ ['"'] from rfl] at hc
    rcases List.mem_cons.mp hc with hc | hc
    · subst hc
      decide
    · rcases List.mem_append.mp hc with hc | hc
      · exact escList_ascii _ c hc
      · rw [List.mem_singleton] at hc
        subst hc
        decide
  | harr xs ih =>
    intro c hc
    rw [show dumpsChars (Json.arr xs) = '[' :: dumpsElems xs ++ [']'] from rfl] at hc
    rcases List.mem_cons.mp hc with hc | hc
    · subst hc
      decide
    · rcases List.mem_append.mp hc with hc | hc
      · exact dumpsElems_ascii xs ih c hc
      · rw [List.mem_singleton] at hc
        subst hc
        decide
  | hobj kvs ih =>
    intro c hc
    rw [show dumpsChars (Json.obj kvs) = '\x7b' :: dumpsMembers kvs ++ ['\x7d'] from rfl] at hc
    rcases List.mem_cons.mp hc with hc | hc
    · subst hc
      decide
    · rcases List.mem_append.mp hc with hc | hc
      · exact dumpsMembers_ascii kvs ih c hc
      · rw [List.mem_singleton] at hc
        subst hc
        decide

theorem string_data_append (a b : String) : (a ++ b).data = a.data ++ b.data := by
  cases a
  cases b
  rfl

set_option maxRecDepth 8192 in
/-- Claim C7: two prompt-builder calls on TurnState mappings that are equal
as mappings - the same keys bound to the same values at every nesting level,
irrespective of member order, which is exactly equality of canonical forms
(`canon_perm` turns any member permutation into that) - render byte-identical
user prompts, and every character of the prompt is ASCII: the serialization
of line 44 sorts keys at every level and escapes everything non-ASCII. -/
theorem build_user_prompt_deterministic (s₁ s₂ : List (String × Json))
    (h : canon (Json.obj s₁) = canon (Json.obj s₂)) :
    build_user_prompt (Json.obj s₁) = build_user_prompt (Json.obj s₂) ∧
      ∀ c ∈ (build_user_prompt (Json.obj s₁)).data, c.toNat < 128 := by
  constructor
  · unfold build_user_prompt jsonDumps
    rw [if_pos rfl, if_pos rfl, h]
  · intro c hc
    unfold build_user_prompt at hc
    rw [string_data_append] at hc
    rcases List.mem_append.mp hc with hc | hc
    · have hall : ∀ x ∈ ("You are selecting the next action for an agent sandbox environment.\nReturn ONLY a JSON object describing the action.\n\nState:\n" : String).data, x.toNat < 128 := by decide
      exact hall c hc
    · unfold jsonDumps at hc
      rw [if_pos rfl] at hc
      exact dumpsChars_ascii _ c hc

/-- Witness for C7 at two mappings whose members are reordered at both the
top level and inside a nested object. -/
theorem build_user_prompt_deterministic_witness :
    build_user_prompt (Json.obj [("b", Json.int 2),
        ("a", Json.obj [("y", Json.int 0), ("z", Json.int 1)])]) =
      build_user_prompt (Json.obj [("a", Json.obj [("z", Json.int 1), ("y", Json.int 0)]),
        ("b", Json.int 2)]) ∧
    ∀ c ∈ (build_user_prompt (Json.obj [("b", Json.int 2),
        ("a", Json.obj [("y", Json.int 0), ("z", Json.int 1)])])).data, c.toNat < 128 :=
  build_user_prompt_deterministic _ _ (by decide)

theorem digitChar_isDigit (d : Nat) (h : d < 10) : (digitChar d).isDigit = true := by
  interval_cases d <;> decide

theorem digitVal_digitChar (d : Nat) (h : d < 10) : digitVal (digitChar d) = d := by
  interval_cases d <;> decide

theorem digitChar_ne_zero (d : Nat) (h1 : 1 ≤ d) (h2 : d < 10) : digitChar d ≠ '0' := by
  interval_cases d <;> decide

theorem natDigits_zero : natDigits 0 = ['0'] := by
  unfold natDigits
  norm_num
  decide

theorem natDigits_isDigit (n : Nat) : ∀ c ∈ natDigits n, c.isDigit = true := by
  induction n using Nat.strong_induction_on with
  | _ n ih =>
    intro c hc
    unfold natDigits at hc
    split at hc
    · next h10 =>
      rw [List.mem_singleton] at hc
      subst hc
      exact digitChar_isDigit n h10
    · next h10 =>
      rcases List.mem_append.mp hc with hc | hc
      · exact ih (n / 10) (Nat.div_lt_self (by omega) (by omega)) c hc
      · rw [List.mem_singleton] at hc
        subst hc
        exact digitChar_isDigit _ (Nat.mod_lt _ (by omega))

theorem natDigits_foldl (n : Nat) :
    (natDigits n).foldl (fun acc d => acc * 10 + digitVal d) 0 = n := by
  induction n using Nat.strong_induction_on with
  | _ n ih =>
    unfold natDigits
    split
    · next h10 =>
      simp [digitVal_digitChar n h10]
    · next h10 =>
      rw [List.foldl_append, ih (n / 10) (Nat.div_lt_self (by omega) (by omega))]
      simp only [List.foldl_cons, List.foldl_nil]
      rw [digitVal_digitChar _ (Nat.mod_lt _ (by omega))]
      omega

theorem natDigits_head_pos (n : Nat) (h : 0 < n) :
    ∃ c t, natDigits n = c :: t ∧ c ≠ '0' ∧ c.isDigit = true := by
  induction n using Nat.strong_induction_on with
  | _ n ih =>
    unfold natDigits
    split
    · next h10 =>
      exact ⟨digitChar n, [], rfl, digitChar_ne_zero n (by omega) h10, digitChar_isDigit n h10⟩
    · next h10 =>
      obtain ⟨c, t, heq, hne, hd⟩ :=
        ih (n / 10) (Nat.div_lt_self (by omega) (by omega)) (Nat.div_pos (by omega) (by omega))
      exact ⟨c, t ++ [digitChar (n % 10)], by rw [heq]; rfl, hne, hd⟩

theorem takeWhile_all_append (p : Char → Bool) : ∀ (t rest : List Char),
    (∀ x ∈ t, p x = true) → (∀ c, rest.head? = some c → p c = false) →
    (t ++ rest).takeWhile p = t ∧ (t ++ rest).dropWhile p = rest := by
  intro t
  induction t with
  | nil =>
    intro rest _ hr
    cases rest with
    | nil => simp
    | cons c r =>
      have := hr c rfl
      simp [List.takeWhile_cons, List.dropWhile_cons, this]
  | cons x t ih =>
    intro rest hall hr
    have hx := hall x (List.mem_cons_self _ _)
    obtain ⟨h1, h2⟩ := ih rest (fun y hy => hall y (List.mem_cons_of_mem _ hy)) hr
    simp [List.takeWhile_cons, List.dropWhile_cons, hx, h1, h2]

theorem parseDigits_natDigits (n : Nat) (rest : List Char)
    (hr : ∀ c, rest.head? = some c → c.isDigit = false) :
    parseDigits (natDigits n ++ rest) = some (n, rest) := by
  rcases Nat.eq_zero_or_pos n with h0 | hpos
  · subst h0
    rw [natDigits_zero]
    rfl
  · obtain ⟨c, t, heq, hc0, hcd⟩ := natDigits_head_pos n hpos
    have hdigs : ∀ x ∈ t, x.isDigit = true := fun x hx =>
      natDigits_isDigit n x (heq ▸ List.mem_cons_of_mem _ hx)
    obtain ⟨htake, hdrop⟩ := takeWhile_all_append Char.isDigit t rest hdigs hr
    have hfold : (c :: t).foldl (fun acc d => acc * 10 + digitVal d) 0 = n := by
      have := natDigits_foldl n
      rw [heq] at this
      exact this
    rw [heq]
    rw [List.cons_append]
    unfold parseDigits
    split
    · next r heq2 =>
      injection heq2 with hch _
      exact absurd hch hc0
    · next c' r' heq2 =>
      injection heq2 with hch hrest
      subst hch
      subst hrest
      rw [if_pos hcd, htake, hdrop, hfold]
    · next heq2 => exact List.noConfusion heq2

theorem hexVal?_hexDig : ∀ d : Nat, d < 16 → hexVal? (hexDig d) = some d := by decide

theorem parseHex4_hex4 (m : Nat) (hm : m < 0x10000) (rest : List Char) :
    parseHex4 (hex4 m ++ rest) = some (m, rest) := by
  have e₁ : hexVal? (hexDig (m / 4096 % 16)) = some (m / 4096 % 16) :=
    hexVal?_hexDig _ (Nat.mod_lt _ (by omega))
  have e₂ : hexVal? (hexDig (m / 256 % 16)) = some (m / 256 % 16) :=
    hexVal?_hexDig _ (Nat.mod_lt _ (by omega))
  have e₃ : hexVal? (hexDig (m / 16 % 16)) = some (m / 16 % 16) :=
    hexVal?_hexDig _ (Nat.mod_lt _ (by omega))
  have e₄ : hexVal? (hexDig (m % 16)) = some (m % 16) :=
    hexVal?_hexDig _ (Nat.mod_lt _ (by omega))
  simp only [hex4, List.cons_append, List.nil_append, parseHex4, e₁, e₂, e₃, e₄,
    Option.some.injEq, Prod.mk.injEq]
  constructor
  · omega
  · trivial

theorem char_valid_range (c : Char) :
    c.toNat < 0xd800 ∨ (0xe000 ≤ c.toNat ∧ c.toNat < 0x110000) := by
  have h : c.toNat < 0xd800 ∨ (0xdfff < c.toNat ∧ c.toNat < 0x110000) := c.valid
  omega

theorem parseEscape_pair (hi lo : Nat) (H1 H2 X : List Char)
    (ph1 : parseHex4 (H1 ++ '\\' :: 'u' :: (H2 ++ X)) = some (hi, '\\' :: 'u' :: (H2 ++ X)))
    (ph2 : parseHex4 (H2 ++ X) = some (lo, X))
    (hhi : 0xd800 ≤ hi ∧ hi < 0xdc00) (hlo : 0xdc00 ≤ lo ∧ lo < 0xe000) :
    parseEscape ('u' :: (H1 ++ '\\' :: 'u' :: (H2 ++ X))) =
      some (Char.ofNat (0x10000 + (hi - 0xd800) * 0x400 + (lo - 0xdc00)), X) := by
  simp [parseEscape, ph1, ph2, hhi, hlo]

theorem parseStrRest_escape_step (f : Nat) (t X rst : List Char) (ch : Char)
    (cs' : List Char) (hpe : parseEscape t = some (ch, X))
    (hrec : parseStrRest f X = some (cs', rst)) :
    parseStrRest (f + 1) ('\\' :: t) = some (ch :: cs', rst) := by
  simp [parseStrRest, hpe, hrec]

theorem parseStrRest_escList : ∀ cs : List Char, ∀ fuel rest, cs.length < fuel →
    parseStrRest fuel (escList cs ++ '"' :: rest) = some (cs, rest) := by
  intro cs
  induction cs with
  | nil =>
    intro fuel rest hf
    cases fuel with
    | zero => omega
    | succ f => simp [escList, parseStrRest]
  | cons c cs' ih =>
    intro fuel rest hf
    cases fuel with
    | zero => simp at hf
    | succ f =>
      have hlen : cs'.length < f := by
        simp only [List.length_cons] at hf
        omega
      have ihf := ih f rest hlen
      by_cases h1 : c = '"'
      · subst h1
        simp [escList, escChar, parseStrRest, parseEscape, List.append_assoc, ihf]
      · by_cases h2 : c = '\\'
        · subst h2
          simp [escList, escChar, parseStrRest, parseEscape, List.append_assoc, ihf]
        · by_cases h3 : c = '\n'
          · subst h3
            simp [escList, escChar, parseStrRest, parseEscape, List.append_assoc, ihf]
          · by_cases h4 : c = '\t'
            · subst h4
              simp [escList, escChar, parseStrRest, parseEscape, List.append_assoc, ihf]
            · by_cases h5 : c = '\r'
              · subst h5
                simp [escList, escChar, parseStrRest, parseEscape, List.append_assoc, ihf]
              · by_cases h6 : c = '\x08'
                · subst h6
                  simp [escList, escChar, parseStrRest, parseEscape, List.append_assoc, ihf]
                · by_cases h7 : c = '\x0c'
                  · subst h7
                    simp [escList, escChar, parseStrRest, parseEscape, List.append_assoc, ihf]
                  · by_cases h8 : 0x20 ≤ c.toNat ∧ c.toNat < 0x7f
                    · have hlow : ¬c.toNat < 0x20 := by omega
                      simp [escList, escChar, parseStrRest, h1, h2, h3, h4, h5, h6, h7, h8,
                        hlow, List.append_assoc, ihf]
                    · by_cases h9 : c.toNat < 0x10000
                      · have hs1 : ¬(0xd800 ≤ c.toNat ∧ c.toNat < 0xdc00) := by
                          rcases char_valid_range c with h | h <;> omega
                        have hs2 : ¬(0xdc00 ≤ c.toNat ∧ c.toNat < 0xe000) := by
                          rcases char_valid_range c with h | h <;> omega
                        have hpx := parseHex4_hex4 c.toNat h9 (escList cs' ++ '"' :: rest)
                        simp [escList, escChar, parseStrRest, parseEscape, h1, h2, h3, h4, h5,
                          h6, h7, h8, h9, hs1, hs2, hpx, Char.ofNat_toNat,
                          List.append_assoc, ihf]
                      · have hrange : 0x10000 ≤ c.toNat ∧ c.toNat < 0x110000 := by
                          rcases char_valid_range c with h | h <;> omega
                        have hdivlt : (c.toNat - 0x10000) / 0x400 < 0x400 :=
                          Nat.div_lt_of_lt_mul (by omega)
                        have hmodlt : (c.toNat - 0x10000) % 0x400 < 0x400 :=
                          Nat.mod_lt _ (by omega)
                        have hpx2 := parseHex4_hex4 (0xdc00 + (c.toNat - 0x10000) % 0x400)
                          (by omega) (escList cs' ++ '"' :: rest)
                        have hpx1 := parseHex4_hex4 (0xd800 + (c.toNat - 0x10000) / 0x400)
                          (by omega)
                          ('\\' :: 'u' ::
                            (hex4 (0xdc00 + (c.toNat - 0x10000) % 0x400) ++
                              (escList cs' ++ '"' :: rest)))
                        have hs1 : 0xd800 ≤ 0xd800 + (c.toNat - 0x10000) / 0x400 ∧
                            0xd800 + (c.toNat - 0x10000) / 0x400 < 0xdc00 := by omega
                        have hs2 : 0xdc00 ≤ 0xdc00 + (c.toNat - 0x10000) % 0x400 ∧
                            0xdc00 + (c.toNat - 0x10000) % 0x400 < 0xe000 := by omega
                        have hpe := parseEscape_pair
                          (0xd800 + (c.toNat - 0x10000) / 0x400)
                          (0xdc00 + (c.toNat - 0x10000) % 0x400)
                          (hex4 (0xd800 + (c.toNat - 0x10000) / 0x400))
                          (hex4 (0xdc00 + (c.toNat - 0x10000) % 0x400))
                          (escList cs' ++ '"' :: rest) hpx1 hpx2 hs1 hs2
                        have hchar : Char.ofNat (0x10000 +
                            (0xd800 + (c.toNat - 0x10000) / 0x400 - 0xd800) * 0x400 +
                            (0xdc00 + (c.toNat - 0x10000) % 0x400 - 0xdc00)) = c := by
                          have harg : 0x10000 +
                              (0xd800 + (c.toNat - 0x10000) / 0x400 - 0xd800) * 0x400 +
                              (0xdc00 + (c.toNat - 0x10000) % 0x400 - 0xdc00) = c.toNat := by
                            omega
                          rw [harg, Char.ofNat_toNat]
                        rw [hchar] at hpe
                        have hform : escList (c :: cs') ++ '"' :: rest =
                            '\\' :: 'u' ::
                              (hex4 (0xd800 + (c.toNat - 0x10000) / 0x400) ++
                                '\\' :: 'u' ::
                                  (hex4 (0xdc00 + (c.toNat - 0x10000) % 0x400) ++
                                    (escList cs' ++ '"' :: rest))) := by
                          simp only [escList, escChar, if_neg h1, if_neg h2, if_neg h3,
                            if_neg h4, if_neg h5, if_neg h6, if_neg h7, if_neg h8, if_neg h9,
                            List.cons_append, List.append_assoc]
                        rw [hform]
                        exact parseStrRest_escape_step f _ _ rest c cs' hpe ihf

theorem isDigit_not_ws (c : Char) (h : c.isDigit = true) : isJsonWs c = false := by
  cases hw : isJsonWs c
  · rfl
  · exfalso
    simp only [isJsonWs, Bool.or_eq_true, decide_eq_true_eq] at hw
    rcases hw with ((h1 | h1) | h1) | h1 <;> subst h1 <;> exact absurd h (by decide)

theorem natDigits_head (n : Nat) : ∃ c t, natDigits n = c :: t ∧ c.isDigit = true := by
  rcases Nat.eq_zero_or_pos n with h0 | hpos
  · subst h0
    exact ⟨'0', [], natDigits_zero, by decide⟩
  · obtain ⟨c, t, hct, _, hd⟩ := natDigits_head_pos n hpos
    exact ⟨c, t, hct, hd⟩

theorem dumpsChars_head (v : Json) :
    ∃ c t, dumpsChars v = c :: t ∧ isJsonWs c = false := by
  cases v with
  | null => exact ⟨'n', ['u', 'l', 'l'], by simp [dumpsChars], rfl⟩
  | bool b =>
    cases b
    · exact ⟨'f', ['a', 'l', 's', 'e'], by simp [dumpsChars], rfl⟩
    · exact ⟨'t', ['r', 'u', 'e'], by simp [dumpsChars], rfl⟩
  | int n =>
    by_cases hn : n < 0
    · exact ⟨'-', natDigits n.natAbs, by simp [dumpsChars, intChars, hn], rfl⟩
    · obtain ⟨c, t, hct, hd⟩ := natDigits_head n.toNat
      exact ⟨c, t, by simp [dumpsChars, intChars, hn, hct], isDigit_not_ws c hd⟩
  | str s => exact ⟨'"', escList s.data ++ ['"'], by simp [dumpsChars], rfl⟩
  | arr xs => exact ⟨'[', dumpsElems xs ++ [']'], by simp [dumpsChars], rfl⟩
  | obj kvs => exact ⟨'\x7b', dumpsMembers kvs ++ ['\x7d'], by simp [dumpsChars], rfl⟩

theorem skipWs_cons_of_neg (c : Char) (t : List Char) (h : isJsonWs c = false) :
    skipWs (c :: t) = c :: t := by
  simp [skipWs, h]

theorem skipWs_dumps (v : Json) (rest : List Char) :
    skipWs (dumpsChars v ++ rest) = dumpsChars v ++ rest := by
  obtain ⟨c, t, hct, hws⟩ := dumpsChars_head v
  rw [hct, List.cons_append, skipWs_cons_of_neg c (t ++ rest) hws]

theorem parseVal_ws (f : Nat) (X : List Char) :
    parseVal f (' ' :: X) = parseVal f X := by
  cases f with
  | zero => rfl
  | succ f' =>
    have h : skipWs (' ' :: X) = skipWs X := by
      simp [skipWs, List.dropWhile_cons, isJsonWs]
    simp only [parseVal, h]

theorem parseElems_ws (f : Nat) (acc : List Json) (X : List Char) :
    parseElems f acc (' ' :: X) = parseElems f acc X := by
  cases f with
  | zero => rfl
  | succ f' => simp only [parseElems, parseVal_ws]

theorem dumpsMembers_cons_head (k : String) (v : Json) (t : List (String × Json)) :
    ∃ X, dumpsMembers ((k, v) :: t) = '"' :: X := by
  cases t with
  | nil =>
    exact ⟨escList k.data ++ '"' :: ':' :: ' ' :: dumpsChars v,
      by simp [dumpsMembers]⟩
  | cons q t' =>
    exact ⟨escList k.data ++ '"' :: ':' :: ' ' :: (dumpsChars v ++
        ',' :: ' ' :: dumpsMembers (q :: t')),
      by simp [dumpsMembers]⟩

theorem lookupKey_append_cons (k : String) (v : Json) :
    ∀ acc t, lookupKey k (acc ++ (k, v) :: t) ≠ none := by
  intro acc
  induction acc with
  | nil => intro t h; simp [lookupKey] at h
  | cons p acc' ih =>
    intro t h
    cases p with
    | mk k' v' =>
      by_cases hk : k' = k
      · simp [lookupKey, hk] at h
      · simp only [List.cons_append, lookupKey, if_neg hk] at h
        exact ih t h

theorem keysNodup_head_absent (k : String) (v : Json) :
    ∀ acc t, keysNodup (acc ++ (k, v) :: t) = true → lookupKey k acc = none := by
  intro acc
  induction acc with
  | nil => intro t _; rfl
  | cons p acc' ih =>
    intro t h
    cases p with
    | mk k' v' =>
      simp only [List.cons_append, keysNodup, Bool.and_eq_true, List.append_eq] at h
      by_cases hk : k' = k
      · exfalso
        subst hk
        rcases hlk : lookupKey k' (acc' ++ (k', v) :: t) with _ | x
        · exact lookupKey_append_cons k' v acc' t hlk
        · rw [hlk] at h
          simp at h
      · simp only [lookupKey, if_neg hk]
        exact ih t h.2

theorem insertUpdate_append (k : String) (v : Json) :
    ∀ acc, lookupKey k acc = none → insertUpdate acc k v = acc ++ [(k, v)] := by
  intro acc
  induction acc with
  | nil => intro _; rfl
  | cons p acc' ih =>
    intro h
    cases p with
    | mk k' v' =>
      simp only [lookupKey] at h
      by_cases hk : k' = k
      · rw [if_pos hk] at h
        exact Option.noConfusion h
      · rw [if_neg hk] at h
        simp only [insertUpdate, if_neg hk, List.cons_append, ih h]

theorem parseElems_dumps :
    ∀ (xs acc : List Json) (fuel : Nat) (rest : List Char),
      xs ≠ [] →
      pfuelElems xs ≤ fuel →
      (∀ p ∈ xs, ∀ f r, pfuel p ≤ f →
        (∀ c, r.head? = some c → c.isDigit = false) →
        parseVal f (dumpsChars p ++ r) = some (p, r)) →
      parseElems fuel acc (dumpsElems xs ++ ']' :: rest) =
        some (.arr (acc ++ xs), rest) := by
  intro xs
  induction xs with
  | nil => intro acc fuel rest hne _ _; exact absurd rfl hne
  | cons x t ih =>
    intro acc fuel rest _ hfuel hP
    have hfx : 1 + max (pfuel x) (pfuelElems t) ≤ fuel := by
      simpa [pfuelElems] using hfuel
    obtain ⟨f, rfl⟩ : ∃ f, fuel = f + 1 := ⟨fuel - 1, by omega⟩
    have hpx : pfuel x ≤ f := by
      have h := le_max_left (pfuel x) (pfuelElems t)
      omega
    have hPx := hP x (List.mem_cons_self x t)
    cases t with
    | nil =>
      have h1 : parseVal f (dumpsChars x ++ ']' :: rest) = some (x, ']' :: rest) :=
        hPx f (']' :: rest) hpx (by
          intro c hc
          simp only [List.head?_cons, Option.some.injEq] at hc
          subst hc
          decide)
      have h2 : skipWs (']' :: rest) = ']' :: rest := skipWs_cons_of_neg _ _ (by decide)
      simp only [dumpsElems, parseElems, h1, h2]
    | cons y t' =>
      have hpt : pfuelElems (y :: t') ≤ f := by
        have h := le_max_right (pfuel x) (pfuelElems (y :: t'))
        omega
      have h1 : parseVal f (dumpsChars x ++
            ',' :: ' ' :: (dumpsElems (y :: t') ++ ']' :: rest)) =
          some (x, ',' :: ' ' :: (dumpsElems (y :: t') ++ ']' :: rest)) :=
        hPx f _ hpx (by
          intro c hc
          simp only [List.head?_cons, Option.some.injEq] at hc
          subst hc
          decide)
      have h2 : skipWs (',' :: ' ' :: (dumpsElems (y :: t') ++ ']' :: rest)) =
          ',' :: ' ' :: (dumpsElems (y :: t') ++ ']' :: rest) :=
        skipWs_cons_of_neg _ _ (by decide)
      have h3 := ih (acc ++ [x]) f rest (by simp) hpt
        (fun p hp => hP p (List.mem_cons_of_mem x hp))
      have h4 : parseElems f (acc ++ [x])
            (' ' :: (dumpsElems (y :: t') ++ ']' :: rest)) =
          some (.arr ((acc ++ [x]) ++ (y :: t')), rest) := by
        rw [parseElems_ws]
        exact h3
      have hshape : dumpsElems (x :: y :: t') ++ ']' :: rest =
          dumpsChars x ++ (',' :: ' ' :: (dumpsElems (y :: t') ++ ']' :: rest)) := by
        simp [dumpsElems, List.append_assoc]
      rw [hshape]
      simp only [parseElems, h1, h2, h4, List.append_assoc, List.singleton_append]

theorem parseMembers_dumps :
    ∀ (kvs acc : List (String × Json)) (fuel : Nat) (rest : List Char),
      kvs ≠ [] →
      pfuelMembers kvs ≤ fuel →
      (∀ p ∈ kvs, ∀ f r, pfuel p.2 ≤ f →
        (∀ c, r.head? = some c → c.isDigit = false) →
        parseVal f (dumpsChars p.2 ++ r) = some (p.2, r)) →
      keysNodup (acc ++ kvs) = true →
      parseMembers fuel acc (dumpsMembers kvs ++ '\x7d' :: rest) =
        some (.obj (acc ++ kvs), rest) := by
  intro kvs
  induction kvs with
  | nil => intro acc fuel rest hne _ _ _; exact absurd rfl hne
  | cons p t ih =>
    obtain ⟨k, v⟩ := p
    intro acc fuel rest _ hfuel hP hnd
    have hfx : 2 + k.data.length + max (pfuel v) (pfuelMembers t) ≤ fuel := by
      simpa [pfuelMembers] using hfuel
    obtain ⟨f, rfl⟩ : ∃ f, fuel = f + 1 := ⟨fuel - 1, by omega⟩
    have hlen : k.data.length < f := by
      have h := Nat.zero_le (max (pfuel v) (pfuelMembers t))
      omega
    have hpv : pfuel v ≤ f := by
      have h := le_max_left (pfuel v) (pfuelMembers t)
      omega
    have hka : lookupKey k acc = none := keysNodup_head_absent k v acc t hnd
    have hku : insertUpdate acc k v = acc ++ [(k, v)] := insertUpdate_append k v acc hka
    have hmk : (⟨k.data⟩ : String) = k := rfl
    have hPv := hP (k, v) (List.mem_cons_self (k, v) t)
    cases t with
    | nil =>
      have hstr : parseStrRest f (escList k.data ++
            '"' :: (':' :: ' ' :: (dumpsChars v ++ '\x7d' :: rest))) =
          some (k.data, ':' :: ' ' :: (dumpsChars v ++ '\x7d' :: rest)) :=
        parseStrRest_escList k.data f _ hlen
      have hws1 : skipWs (':' :: ' ' :: (dumpsChars v ++ '\x7d' :: rest)) =
          ':' :: ' ' :: (dumpsChars v ++ '\x7d' :: rest) :=
        skipWs_cons_of_neg _ _ (by decide)
      have hv : parseVal f (dumpsChars v ++ '\x7d' :: rest) = some (v, '\x7d' :: rest) :=
        hPv f _ hpv (by
          intro c hc
          simp only [List.head?_cons, Option.some.injEq] at hc
          subst hc
          decide)
      have hv2 : parseVal f (' ' :: (dumpsChars v ++ '\x7d' :: rest)) =
          some (v, '\x7d' :: rest) := by
        rw [parseVal_ws]
        exact hv
      have hws2 : skipWs ('\x7d' :: rest) = '\x7d' :: rest :=
        skipWs_cons_of_neg _ _ (by decide)
      have hshape : dumpsMembers [(k, v)] ++ '\x7d' :: rest =
          '"' :: (escList k.data ++
            '"' :: (':' :: ' ' :: (dumpsChars v ++ '\x7d' :: rest))) := by
        simp [dumpsMembers, List.append_assoc]
      rw [hshape]
      simp only [parseMembers, hstr, hws1, hv2, hws2, hmk, hku]
    | cons q t' =>
      obtain ⟨k2, v2⟩ := q
      have hpt : pfuelMembers ((k2, v2) :: t') ≤ f := by
        have h := le_max_right (pfuel v) (pfuelMembers ((k2, v2) :: t'))
        omega
      have hstr : parseStrRest f (escList k.data ++
            '"' :: (':' :: ' ' :: (dumpsChars v ++
              ',' :: ' ' :: (dumpsMembers ((k2, v2) :: t') ++ '\x7d' :: rest)))) =
          some (k.data, ':' :: ' ' :: (dumpsChars v ++
            ',' :: ' ' :: (dumpsMembers ((k2, v2) :: t') ++ '\x7d' :: rest))) :=
        parseStrRest_escList k.data f _ hlen
      have hws1 : skipWs (':' :: ' ' :: (dumpsChars v ++
            ',' :: ' ' :: (dumpsMembers ((k2, v2) :: t') ++ '\x7d' :: rest))) =
          ':' :: ' ' :: (dumpsChars v ++
            ',' :: ' ' :: (dumpsMembers ((k2, v2) :: t') ++ '\x7d' :: rest)) :=
        skipWs_cons_of_neg _ _ (by decide)
      have hv : parseVal f (dumpsChars v ++
            ',' :: ' ' :: (dumpsMembers ((k2, v2) :: t') ++ '\x7d' :: rest)) =
          some (v, ',' :: ' ' :: (dumpsMembers ((k2, v2) :: t') ++ '\x7d' :: rest)) :=
        hPv f _ hpv (by
          intro c hc
          simp only [List.head?_cons, Option.some.injEq] at hc
          subst hc
          decide)
      have hv2 : parseVal f (' ' :: (dumpsChars v ++
            ',' :: ' ' :: (dumpsMembers ((k2, v2) :: t') ++ '\x7d' :: rest))) =
          some (v, ',' :: ' ' :: (dumpsMembers ((k2, v2) :: t') ++ '\x7d' :: rest)) := by
        rw [parseVal_ws]
        exact hv
      have hws2 : skipWs (',' :: ' ' :: (dumpsMembers ((k2, v2) :: t') ++ '\x7d' :: rest)) =
          ',' :: ' ' :: (dumpsMembers ((k2, v2) :: t') ++ '\x7d' :: rest) :=
        skipWs_cons_of_neg _ _ (by decide)
      obtain ⟨X, hX⟩ := dumpsMembers_cons_head k2 v2 t'
      have hws3 : skipWs (' ' :: (dumpsMembers ((k2, v2) :: t') ++ '\x7d' :: rest)) =
          dumpsMembers ((k2, v2) :: t') ++ '\x7d' :: rest := by
        rw [hX, List.cons_append]
        simp [skipWs, List.dropWhile_cons, isJsonWs]
      have hnd' : keysNodup ((acc ++ [(k, v)]) ++ ((k2, v2) :: t')) = true := by
        rw [List.append_assoc, List.singleton_append]
        exact hnd
      have h5 := ih (acc ++ [(k, v)]) f rest (by simp) hpt
        (fun p hp => hP p (List.mem_cons_of_mem (k, v) hp)) hnd'
      have hshape : dumpsMembers ((k, v) :: (k2, v2) :: t') ++ '\x7d' :: rest =
          '"' :: (escList k.data ++
            '"' :: (':' :: ' ' :: (dumpsChars v ++
              ',' :: ' ' :: (dumpsMembers ((k2, v2) :: t') ++ '\x7d' :: rest)))) := by
        simp [dumpsMembers, List.append_assoc]
      rw [hshape]
      simp only [parseMembers, hstr, hws1, hv2, hws2, hws3, hmk, hku, h5,
        List.append_assoc, List.singleton_append]

theorem isDigit_char_facts (c : Char) (h : c.isDigit = true) :
    c ≠ '\x7b' ∧ c ≠ '[' ∧ c ≠ '"' ∧ c ≠ '-' ∧ c ≠ ']' := by
  refine ⟨?_, ?_, ?_, ?_, ?_⟩ <;> intro hEq <;> subst hEq <;> exact absurd h (by decide)

theorem dumpsChars_head_ne (v : Json) :
    ∃ c t, dumpsChars v = c :: t ∧ isJsonWs c = false ∧ c ≠ ']' := by
  cases v with
  | null => exact ⟨'n', ['u', 'l', 'l'], by simp [dumpsChars], rfl, by decide⟩
  | bool b =>
    cases b
    · exact ⟨'f', ['a', 'l', 's', 'e'], by simp [dumpsChars], rfl, by decide⟩
    · exact ⟨'t', ['r', 'u', 'e'], by simp [dumpsChars], rfl, by decide⟩
  | int n =>
    by_cases hn : n < 0
    · exact ⟨'-', natDigits n.natAbs, by simp [dumpsChars, intChars, hn], rfl, by decide⟩
    · obtain ⟨c, t, hct, hd⟩ := natDigits_head n.toNat
      exact ⟨c, t, by simp [dumpsChars, intChars, hn, hct], isDigit_not_ws c hd,
        (isDigit_char_facts c hd).2.2.2.2⟩
  | str s => exact ⟨'"', escList s.data ++ ['"'], by simp [dumpsChars], rfl, by decide⟩
  | arr xs => exact ⟨'[', dumpsElems xs ++ [']'], by simp [dumpsChars], rfl, by decide⟩
  | obj kvs =>
    exact ⟨'\x7b', dumpsMembers kvs ++ ['\x7d'], by simp [dumpsChars], rfl, by decide⟩

theorem wfList_mem : ∀ xs, Json.wfList xs = true → ∀ x ∈ xs, Json.wfB x = true := by
  intro xs
  induction xs with
  | nil => intro _ x hx; exact absurd hx (List.not_mem_nil x)
  | cons y t ih =>
    intro h x hx
    simp only [Json.wfList, Bool.and_eq_true] at h
    rcases List.mem_cons.mp hx with h1 | h1
    · subst h1; exact h.1
    · exact ih h.2 x h1

theorem wfFields_mem : ∀ kvs, Json.wfFields kvs = true →
    ∀ p ∈ kvs, Json.wfB p.2 = true := by
  intro kvs
  induction kvs with
  | nil => intro _ p hp; exact absurd hp (List.not_mem_nil p)
  | cons q t ih =>
    intro h p hp
    cases q with
    | mk k v =>
      simp only [Json.wfFields, Bool.and_eq_true] at h
      rcases List.mem_cons.mp hp with h1 | h1
      · subst h1; exact h.1
      · exact ih h.2 p h1

theorem parseVal_dumps : ∀ v : Json, Json.wfB v = true →
    ∀ fuel rest, pfuel v ≤ fuel →
    (∀ c, rest.head? = some c → c.isDigit = false) →
    parseVal fuel (dumpsChars v ++ rest) = some (v, rest) := by
  refine Json.inductionOn
    (fun v => Json.wfB v = true → ∀ fuel rest, pfuel v ≤ fuel →
      (∀ c, rest.head? = some c → c.isDigit = false) →
      parseVal fuel (dumpsChars v ++ rest) = some (v, rest))
    ?_ ?_ ?_ ?_ ?_ ?_
  · intro _ fuel rest hf _
    simp only [pfuel] at hf
    obtain ⟨f, rfl⟩ : ∃ f, fuel = f + 1 := ⟨fuel - 1, by omega⟩
    rw [show dumpsChars Json.null ++ rest = 'n' :: 'u' :: 'l' :: 'l' :: rest from by
      simp [dumpsChars]]
    simp [parseVal, skipWs, List.dropWhile_cons, isJsonWs]
  · intro b _ fuel rest hf _
    simp only [pfuel] at hf
    obtain ⟨f, rfl⟩ : ∃ f, fuel = f + 1 := ⟨fuel - 1, by omega⟩
    cases b
    · rw [show dumpsChars (Json.bool false) ++ rest = 'f' :: 'a' :: 'l' :: 's' :: 'e' :: rest
        from by simp [dumpsChars]]
      simp [parseVal, skipWs, List.dropWhile_cons, isJsonWs]
    · rw [show dumpsChars (Json.bool true) ++ rest = 't' :: 'r' :: 'u' :: 'e' :: rest from by
        simp [dumpsChars]]
      simp [parseVal, skipWs, List.dropWhile_cons, isJsonWs]
  · intro n _ fuel rest hf hrest
    simp only [pfuel] at hf
    obtain ⟨f, rfl⟩ : ∃ f, fuel = f + 1 := ⟨fuel - 1, by omega⟩
    by_cases hn : n < 0
    · rw [show dumpsChars (Json.int n) ++ rest = '-' :: (natDigits n.natAbs ++ rest) from by
        simp [dumpsChars, intChars, hn]]
      have hpd := parseDigits_natDigits n.natAbs rest hrest
      have hval : -((n.natAbs : Nat) : Int) = n := by omega
      simp [parseVal, skipWs, List.dropWhile_cons, isJsonWs, hpd, hval]
      rw [abs_of_neg hn]
      omega
    · obtain ⟨c, t, hct, hd⟩ := natDigits_head n.toNat
      obtain ⟨hne1, hne2, hne3, hne4, _⟩ := isDigit_char_facts c hd
      have hws := isDigit_not_ws c hd
      rw [show dumpsChars (Json.int n) ++ rest = c :: (t ++ rest) from by
        simp [dumpsChars, intChars, hn, hct]]
      have hpd : parseDigits (c :: (t ++ rest)) = some (n.toNat, rest) := by
        rw [show c :: (t ++ rest) = natDigits n.toNat ++ rest from by
          rw [hct, List.cons_append]]
        exact parseDigits_natDigits n.toNat rest hrest
      have hval : ((n.toNat : Nat) : Int) = n := by omega
      simp [parseVal, skipWs, List.dropWhile_cons, hws, hne1, hne2, hne3, hne4, hd, hpd, hval]
  · intro s _ fuel rest hf _
    simp only [pfuel] at hf
    obtain ⟨f, rfl⟩ : ∃ f, fuel = f + 1 := ⟨fuel - 1, by omega⟩
    rw [show dumpsChars (Json.str s) ++ rest = '"' :: (escList s.data ++ '"' :: rest) from by
      simp [dumpsChars, List.append_assoc]]
    have hstr := parseStrRest_escList s.data f rest (by omega)
    simp [parseVal, skipWs, List.dropWhile_cons, isJsonWs, hstr]
  · intro xs hmem hwf fuel rest hf hrest
    simp only [pfuel] at hf
    obtain ⟨f, rfl⟩ : ∃ f, fuel = f + 1 := ⟨fuel - 1, by omega⟩
    cases xs with
    | nil =>
      rw [show dumpsChars (Json.arr []) ++ rest = '[' :: ']' :: rest from by
        simp [dumpsChars, dumpsElems]]
      obtain ⟨f', rfl⟩ : ∃ f', f = f' + 1 :=
        ⟨f - 1, by simp only [pfuelElems] at hf; omega⟩
      simp [parseVal, parseArrStart, skipWs, List.dropWhile_cons, isJsonWs]
    | cons x t =>
      simp only [Json.wfB] at hwf
      have hP : ∀ p ∈ x :: t, ∀ fl r, pfuel p ≤ fl →
          (∀ c, r.head? = some c → c.isDigit = false) →
          parseVal fl (dumpsChars p ++ r) = some (p, r) :=
        fun p hp => hmem p hp (wfList_mem _ hwf p hp)
      obtain ⟨f', rfl⟩ : ∃ f', f = f' + 1 :=
        ⟨f - 1, by simp only [pfuelElems] at hf; omega⟩
      have hel := parseElems_dumps (x :: t) [] f' rest (by simp)
        (by simp only [pfuelElems] at hf ⊢; omega) hP
      obtain ⟨c, ct, hct, hws, hne⟩ := dumpsChars_head_ne x
      have hhead : ∃ L, dumpsElems (x :: t) ++ ']' :: rest = c :: L := by
        cases t with
        | nil =>
          exact ⟨ct ++ ']' :: rest, by simp [dumpsElems, hct]⟩
        | cons y t' =>
          exact ⟨ct ++ (',' :: ' ' :: (dumpsElems (y :: t') ++ ']' :: rest)),
            by simp [dumpsElems, hct, List.append_assoc]⟩
      obtain ⟨L, hL⟩ := hhead
      have hskipA : skipWs (dumpsElems (x :: t) ++ ']' :: rest) =
          dumpsElems (x :: t) ++ ']' :: rest := by
        rw [hL]
        exact skipWs_cons_of_neg _ _ hws
      have harr : parseArrStart (f' + 1) (dumpsElems (x :: t) ++ ']' :: rest) =
          some (.arr (x :: t), rest) := by
        simp only [parseArrStart, hskipA]
        rw [hL]
        split
        · next r heq =>
          injection heq with h1 _
          exact absurd h1 hne
        · next t2 hne2 =>
          rw [← hL, hel]
          simp
      have h0 : skipWs ('[' :: (dumpsElems (x :: t) ++ ']' :: rest)) =
          '[' :: (dumpsElems (x :: t) ++ ']' :: rest) :=
        skipWs_cons_of_neg _ _ (by decide)
      rw [show dumpsChars (Json.arr (x :: t)) ++ rest =
          '[' :: (dumpsElems (x :: t) ++ ']' :: rest) from by
        simp [dumpsChars, List.append_assoc]]
      simp [parseVal, h0, harr]
  · intro kvs hmem hwf fuel rest hf hrest
    simp only [Json.wfB, Bool.and_eq_true] at hwf
    simp only [pfuel] at hf
    obtain ⟨f, rfl⟩ : ∃ f, fuel = f + 1 := ⟨fuel - 1, by omega⟩
    cases kvs with
    | nil =>
      rw [show dumpsChars (Json.obj []) ++ rest = '\x7b' :: '\x7d' :: rest from by
        simp [dumpsChars, dumpsMembers]]
      obtain ⟨f', rfl⟩ : ∃ f', f = f' + 1 :=
        ⟨f - 1, by simp only [pfuelMembers] at hf; omega⟩
      simp [parseVal, parseObjStart, skipWs, List.dropWhile_cons, isJsonWs]
    | cons p t =>
      obtain ⟨k, v⟩ := p
      have hP : ∀ q ∈ (k, v) :: t, ∀ fl r, pfuel q.2 ≤ fl →
          (∀ c, r.head? = some c → c.isDigit = false) →
          parseVal fl (dumpsChars q.2 ++ r) = some (q.2, r) :=
        fun q hq => hmem q hq (wfFields_mem _ hwf.2 q hq)
      obtain ⟨f', rfl⟩ : ∃ f', f = f' + 1 :=
        ⟨f - 1, by simp only [pfuelMembers] at hf; omega⟩
      have hmem2 := parseMembers_dumps ((k, v) :: t) [] f' rest (by simp)
        (by simp only [pfuelMembers] at hf ⊢; omega) hP
        (by simpa using hwf.1)
      obtain ⟨X, hX⟩ := dumpsMembers_cons_head k v t
      have hskipM : skipWs (dumpsMembers ((k, v) :: t) ++ '\x7d' :: rest) =
          dumpsMembers ((k, v) :: t) ++ '\x7d' :: rest := by
        rw [hX, List.cons_append]
        exact skipWs_cons_of_neg _ _ (by decide)
      have hobjS : parseObjStart (f' + 1) (dumpsMembers ((k, v) :: t) ++ '\x7d' :: rest) =
          some (.obj ((k, v) :: t), rest) := by
        simp only [parseObjStart, hskipM]
        rw [hX, List.cons_append]
        split
        · next r heq =>
          injection heq with h1 _
          exact absurd h1 (by decide)
        · next t2 hne2 =>
          rw [← List.cons_append, ← hX, hmem2]
          simp
      have h0 : skipWs ('\x7b' :: (dumpsMembers ((k, v) :: t) ++ '\x7d' :: rest)) =
          '\x7b' :: (dumpsMembers ((k, v) :: t) ++ '\x7d' :: rest) :=
        skipWs_cons_of_neg _ _ (by decide)
      rw [show dumpsChars (Json.obj ((k, v) :: t)) ++ rest =
          '\x7b' :: (dumpsMembers ((k, v) :: t) ++ '\x7d' :: rest) from by
        simp [dumpsChars, List.append_assoc]]
      simp [parseVal, h0, hobjS]

theorem escChar_length_pos (c : Char) : 1 ≤ (escChar c).length := by
  simp only [escChar]
  split_ifs <;> simp [hex4]

theorem escList_length_ge : ∀ cs : List Char, cs.length ≤ (escList cs).length := by
  intro cs
  induction cs with
  | nil => simp [escList]
  | cons c t ih =>
    have hc := escChar_length_pos c
    simp only [escList, List.length_append, List.length_cons]
    omega

theorem pfuelElems_le : ∀ ys : List Json,
    (∀ x ∈ ys, pfuel x + 1 ≤ 3 * (dumpsChars x).length) →
    pfuelElems ys ≤ 3 * (dumpsElems ys).length := by
  intro ys
  induction ys with
  | nil => intro _; simp [pfuelElems, dumpsElems]
  | cons x t ih =>
    intro h
    have hx := h x (List.mem_cons_self x t)
    cases t with
    | nil =>
      rw [show pfuelElems [x] = 1 + max (pfuel x) (pfuelElems []) from by simp [pfuelElems],
        show dumpsElems [x] = dumpsChars x from by simp [dumpsElems],
        show pfuelElems ([] : List Json) = 0 from by simp [pfuelElems]]
      have hmax : max (pfuel x) 0 = pfuel x := Nat.max_zero (pfuel x)
      omega
    | cons y t' =>
      have ht := ih (fun z hz => h z (List.mem_cons_of_mem x hz))
      have hmax : max (pfuel x) (pfuelElems (y :: t')) ≤ pfuel x + pfuelElems (y :: t') :=
        Nat.max_le.mpr ⟨Nat.le_add_right _ _, Nat.le_add_left _ _⟩
      rw [show pfuelElems (x :: y :: t') = 1 + max (pfuel x) (pfuelElems (y :: t')) from by
          simp [pfuelElems],
        show dumpsElems (x :: y :: t') = dumpsChars x ++ ',' :: ' ' :: dumpsElems (y :: t')
          from by simp [dumpsElems]]
      simp only [List.length_append, List.length_cons]
      omega

theorem pfuelMembers_le : ∀ kvs : List (String × Json),
    (∀ p ∈ kvs, pfuel p.2 + 1 ≤ 3 * (dumpsChars p.2).length) →
    pfuelMembers kvs ≤ 3 * (dumpsMembers kvs).length := by
  intro kvs
  induction kvs with
  | nil => intro _; simp [pfuelMembers, dumpsMembers]
  | cons p t ih =>
    obtain ⟨k, v⟩ := p
    intro h
    have hv : pfuel v + 1 ≤ 3 * (dumpsChars v).length :=
      h (k, v) (List.mem_cons_self (k, v) t)
    have hkl := escList_length_ge k.data
    cases t with
    | nil =>
      rw [show pfuelMembers [(k, v)] =
          2 + k.data.length + max (pfuel v) (pfuelMembers []) from by simp [pfuelMembers],
        show dumpsMembers [(k, v)] =
          '"' :: escList k.data ++ '"' :: ':' :: ' ' :: dumpsChars v from by
          simp [dumpsMembers],
        show pfuelMembers ([] : List (String × Json)) = 0 from by simp [pfuelMembers]]
      have hmax : max (pfuel v) 0 = pfuel v := Nat.max_zero (pfuel v)
      simp only [List.length_append, List.length_cons]
      omega
    | cons q t' =>
      have ht := ih (fun z hz => h z (List.mem_cons_of_mem (k, v) hz))
      have hmax : max (pfuel v) (pfuelMembers (q :: t')) ≤
          pfuel v + pfuelMembers (q :: t') :=
        Nat.max_le.mpr ⟨Nat.le_add_right _ _, Nat.le_add_left _ _⟩
      rw [show pfuelMembers ((k, v) :: q :: t') =
          2 + k.data.length + max (pfuel v) (pfuelMembers (q :: t')) from by
          simp [pfuelMembers],
        show dumpsMembers ((k, v) :: q :: t') =
          '"' :: escList k.data ++ '"' :: ':' :: ' ' :: dumpsChars v ++
            ',' :: ' ' :: dumpsMembers (q :: t') from by simp [dumpsMembers]]
      simp only [List.length_append, List.length_cons]
      omega

theorem pfuel_le : ∀ v : Json, pfuel v + 1 ≤ 3 * (dumpsChars v).length := by
  refine Json.inductionOn (fun v => pfuel v + 1 ≤ 3 * (dumpsChars v).length)
    ?_ ?_ ?_ ?_ ?_ ?_
  · simp [pfuel, dumpsChars]
  · intro b; cases b <;> simp [pfuel, dumpsChars]
  · intro n
    have hlen : 1 ≤ (intChars n).length := by
      unfold intChars
      by_cases hn : n < 0
      · simp [hn]
      · obtain ⟨c, t, hct, _⟩ := natDigits_head n.toNat
        simp [hn, hct]
    rw [show pfuel (Json.int n) = 1 from by simp [pfuel],
      show dumpsChars (Json.int n) = intChars n from by simp [dumpsChars]]
    omega
  · intro s
    have hkl := escList_length_ge s.data
    rw [show pfuel (Json.str s) = 2 + s.data.length from by simp [pfuel],
      show dumpsChars (Json.str s) = '"' :: escList s.data ++ ['"'] from by
        simp [dumpsChars]]
    simp only [List.length_append, List.length_cons, List.length_singleton]
    omega
  · intro xs hmem
    have he := pfuelElems_le xs hmem
    rw [show pfuel (Json.arr xs) = 2 + pfuelElems xs from by simp [pfuel],
      show dumpsChars (Json.arr xs) = '[' :: dumpsElems xs ++ [']'] from by
        simp [dumpsChars]]
    simp only [List.length_append, List.length_cons, List.length_singleton]
    omega
  · intro kvs hmem
    have hm := pfuelMembers_le kvs hmem
    rw [show pfuel (Json.obj kvs) = 2 + pfuelMembers kvs from by simp [pfuel],
      show dumpsChars (Json.obj kvs) = '\x7b' :: dumpsMembers kvs ++ ['\x7d'] from by
        simp [dumpsChars]]
    simp only [List.length_append, List.length_cons, List.length_singleton]
    omega

theorem jsonLoadsList_dumps (v : Json) (hwf : Json.wfB v = true) :
    jsonLoadsList (dumpsChars v) = some v := by
  have hb := pfuel_le v
  have hp := parseVal_dumps v hwf (3 * (dumpsChars v).length + 8) [] (by omega)
    (by intro c hc; simp at hc)
  rw [List.append_nil] at hp
  unfold jsonLoadsList
  rw [hp]
  simp [skipWs]

theorem jsonLoads_dumps (v : Json) (hwf : Json.wfB v = true) :
    jsonLoads (jsonDumps false v) = some v := by
  have h := jsonLoadsList_dumps v hwf
  unfold jsonLoads jsonDumps
  simpa using h

theorem pyStrip_brace (mid : List Char) :
    pyStrip (('\x7b' :: mid) ++ ['\x7d']) = ('\x7b' :: mid) ++ ['\x7d'] := by
  have e1 : isPySpace '\x7b' = false := by decide
  have e2 : isPySpace '\x7d' = false := by decide
  unfold pyStrip
  simp [List.dropWhile_cons, e1, e2]

theorem mkEnvelope_wf (content : String) : Json.wfB (mkEnvelope content) = true := by
  simp [mkEnvelope, Json.wfB, Json.wfFields, Json.wfList, keysNodup, lookupKey]

theorem getContentRaw_mkEnvelope (content : String) :
    getContentRaw (mkEnvelope content) = .ok (.str content) := rfl

theorem extract_dumps_obj (kvs : List (String × Json))
    (hwf : Json.wfB (Json.obj kvs) = true)
    (hnf : fencedSearch (pyStrip (jsonDumps false (Json.obj kvs)).data) = none) :
    extract_json_object (jsonDumps false (Json.obj kvs)) = .ok (Json.obj kvs) := by
  have hshape : dumpsChars (Json.obj kvs) = ('\x7b' :: dumpsMembers kvs) ++ ['\x7d'] := by
    simp [dumpsChars]
  have hps : pyStrip (dumpsChars (Json.obj kvs)) = dumpsChars (Json.obj kvs) := by
    rw [hshape]
    exact pyStrip_brace _
  have hdata : (jsonDumps false (Json.obj kvs)).data = dumpsChars (Json.obj kvs) := by
    simp [jsonDumps]
  have hnf' : fencedSearch (pyStrip (dumpsChars (Json.obj kvs))) = none := by
    rw [← hdata]
    exact hnf
  unfold extract_json_object candidate
  rw [hdata, hnf', hps]
  unfold tiers23
  rw [jsonLoadsList_dumps _ hwf]
  simp [Json.isObj]

theorem call_openrouter_success (env : String → Option String) (skill : String) (st : Json)
    (key content : String)
    (hk : env "OPENROUTER_API_KEY" = some key) (hk2 : ¬key = "") :
    (call_openrouter env
        (fun _ => .success (jsonDumps false (mkEnvelope content))) skill st).1 =
      extract_json_object content := by
  simp only [call_openrouter, hk, hk2, if_false,
    jsonLoads_dumps (mkEnvelope content) (mkEnvelope_wf content),
    getContentRaw_mkEnvelope content]

/-- Claim C1, amended: when the provider's reply content is exactly the
serialization of a well-formed JSON object AND that serialization contains no
match of the fence pattern, the extractor returns exactly that object, and the
full pipeline emits exactly its serialization as the output line — extraction
after serialization is the identity on such replies.  The no-fence-match
proviso is necessary: a serialized object whose string member spells a
backtick-fenced brace span is re-extracted from that span instead (see the
counterexample). -/
theorem pure_object_reply_roundtrip
    (env : String → Option String) (fs : String → Option String)
    (stdin : String) (st env_type : Json) (kvs : List (String × Json))
    (key skill : String)
    (hwf : Json.wfB (Json.obj kvs) = true)
    (hnf : fencedSearch (pyStrip (jsonDumps false (Json.obj kvs)).data) = none)
    (hst : jsonLoads stdin = some st)
    (het : envTypeCheck st = .ok env_type)
    (hkey : env "OPENROUTER_API_KEY" = some key)
    (hkey2 : ¬key = "")
    (hfs : fs (skillPathFor (getenvD env "SANDBOX_SKILLS_DIR" DEFAULT_SKILLS_DIR) env_type) =
      some skill) :
    extract_json_object (jsonDumps false (Json.obj kvs)) = .ok (Json.obj kvs) ∧
    (run_from_stdin env fs
        (fun _ => .success (jsonDumps false (mkEnvelope (jsonDumps false (Json.obj kvs)))))
        stdin).1 = .ok (jsonDumps false (Json.obj kvs) ++ "\n") := by
  have partA := extract_dumps_obj kvs hwf hnf
  refine ⟨partA, ?_⟩
  have hco1 : (call_openrouter env
      (fun _ => .success (jsonDumps false (mkEnvelope (jsonDumps false (Json.obj kvs)))))
      skill st).1 = .ok (Json.obj kvs) := by
    rw [call_openrouter_success env skill st key (jsonDumps false (Json.obj kvs)) hkey hkey2]
    exact partA
  rcases hco : call_openrouter env
      (fun _ => .success (jsonDumps false (mkEnvelope (jsonDumps false (Json.obj kvs)))))
      skill st with ⟨res, reqs⟩
  rw [hco] at hco1
  simp only at hco1
  subst hco1
  simp only [run_from_stdin, hst, het, hkey, hkey2, if_false, hfs, hco]

/-- Witness for C1 at the test suite's own scenario: env_type `rpg`, a
credential in the environment, the skill file present, and a provider whose
reply is exactly the serialization of one object. -/
theorem pure_object_reply_roundtrip_witness :
    extract_json_object (jsonDumps false (Json.obj [("action", Json.str "move")])) =
        .ok (Json.obj [("action", Json.str "move")]) ∧
    (run_from_stdin
        (fun k => if k = "OPENROUTER_API_KEY" then some "test-key" else none)
        (fun p => if p = "/workspace/skills/rpg-player.md" then
          some "rpg skill prompt" else none)
        (fun _ => .success (jsonDumps false (mkEnvelope (jsonDumps false
          (Json.obj [("action", Json.str "move")])))))
        "\x7b\"env_type\": \"rpg\"\x7d").1 =
      .ok (jsonDumps false (Json.obj [("action", Json.str "move")]) ++ "\n") :=
  pure_object_reply_roundtrip
    (fun k => if k = "OPENROUTER_API_KEY" then some "test-key" else none)
    (fun p => if p = "/workspace/skills/rpg-player.md" then
      some "rpg skill prompt" else none)
    "\x7b\"env_type\": \"rpg\"\x7d"
    (Json.obj [("env_type", Json.str "rpg")]) (Json.str "rpg")
    [("action", Json.str "move")] "test-key" "rpg skill prompt"
    (by decide) (by decide) (by decide) (by decide) rfl (by decide) (by decide)

/-- Counterexample to C1 as stated: a pure JSON-object reply whose single
string member spells a backtick-fenced empty brace span.  Its serialization
matches the fence pattern, so the extractor returns the empty object mined
from the fenced span, not the serialized object itself. -/
theorem roundtrip_fence_counterexample :
    extract_json_object (jsonDumps false
        (Json.obj [("a", Json.str "\x60\x60\x60 \x7b\x7d \x60\x60\x60")])) =
      .ok (Json.obj []) ∧
    Json.obj ([] : List (String × Json)) ≠
      Json.obj [("a", Json.str "\x60\x60\x60 \x7b\x7d \x60\x60\x60")] := by
  exact ⟨by decide, by decide⟩

end TakeTurn
